import Mathlib

set_option maxRecDepth 1000000

/-!
# Verification of the `otp` repository (HOTP / TOTP / Key URI codec)

Shallow embedding of the Go sources into Lean 4.

Conventions of the embedding:
* Go byte slices and strings are `List Nat` (each element a byte value `< 256`).
* Go `uint` / `uint32` / `uint64` arithmetic is `Nat` arithmetic with explicit
  `% 2^w` where wrap-around matters.
* Go `int` / `int64` are `Int`; the Go `/` operator on integers truncates
  toward zero, which is `Int.tdiv`.
* A Go run-time panic (out-of-range slice, division by zero) is modelled by
  `Option.none` in the function's result.
* Go's standard library functions used by the sources (crypto/sha1, sha256,
  sha512, crypto/hmac, encoding/base32, net/url, strconv) are modelled as
  executable Lean functions following their documented behaviour.
-/

namespace Otp

/-- Go byte strings / slices: lists of byte values. -/
abbrev Bytes := List Nat

/-- ASCII bytes of a Lean string literal (used only with ASCII literals). -/
def ascii (s : String) : Bytes := s.data.map Char.toNat

/-- Big-endian serialization of `x` into `n` bytes (`binary.BigEndian.PutUintN`);
higher bytes of `x` beyond `n` are dropped, each emitted byte is `< 256`. -/
def toBytesBE : Nat → Nat → Bytes
  | 0, _ => []
  | n + 1, x => (x / 256 ^ n) % 256 :: toBytesBE n x

/-- Big-endian reading of a byte list as an unsigned integer
(`binary.BigEndian.UintN` on a slice of exactly those bytes). -/
def fromBytesBE (bs : Bytes) : Nat := bs.foldl (fun acc b => acc * 256 + b % 256) 0

/-- 32-bit left rotation (on values `< 2^32`). -/
def rotl32 (k x : Nat) : Nat := ((x <<< k) ||| (x >>> (32 - k))) &&& 4294967295

/-- 32-bit right rotation (on values `< 2^32`). -/
def rotr32 (k x : Nat) : Nat := ((x >>> k) ||| (x <<< (32 - k))) &&& 4294967295

/-- 64-bit right rotation (on values `< 2^64`). -/
def rotr64 (k x : Nat) : Nat := ((x >>> k) ||| (x <<< (64 - k))) &&& 18446744073709551615

/-- Split a byte list into big-endian 32-bit words, 4 bytes per word. -/
def toWords32 : Bytes → List Nat
  | b0 :: b1 :: b2 :: b3 :: rest =>
      ((((b0 % 256) * 256 + b1 % 256) * 256 + b2 % 256) * 256 + b3 % 256) :: toWords32 rest
  | _ => []

/-- Split a byte list into big-endian 64-bit words, 8 bytes per word. -/
def toWords64 : Bytes → List Nat
  | b0 :: b1 :: b2 :: b3 :: b4 :: b5 :: b6 :: b7 :: rest =>
      fromBytesBE [b0, b1, b2, b3, b4, b5, b6, b7] :: toWords64 rest
  | _ => []

/-- Merkle–Damgård padding shared by SHA-1/256/512: append `0x80`, zero bytes
up to congruence, then the bit length in `lenBytes` big-endian bytes, so the
total length is a multiple of `blockLen`. -/
def mdPad (blockLen lenBytes : Nat) (msg : Bytes) : Bytes :=
  let l := msg.length
  let k := (2 * blockLen - lenBytes - 1 - l % blockLen) % blockLen
  msg ++ 0x80 :: List.replicate k 0 ++ toBytesBE lenBytes (l * 8)

/-! ## SHA-1 (FIPS 180-4, as implemented by Go `crypto/sha1`) -/

/-- SHA-1 message-schedule extension: the accumulator holds the words produced
so far, most recent first; each step prepends
`rotl1 (w[t-3] xor w[t-8] xor w[t-14] xor w[t-16])`. -/
def sha1SchedAux : Nat → List Nat → List Nat
  | 0, acc => acc
  | n + 1, acc =>
      sha1SchedAux n
        (rotl32 1 (acc.getD 2 0 ^^^ acc.getD 7 0 ^^^ acc.getD 13 0 ^^^ acc.getD 15 0) :: acc)

/-- The 80-word SHA-1 message schedule of one 64-byte chunk. -/
def sha1Schedule (chunk : Bytes) : List Nat :=
  (sha1SchedAux 64 (toWords32 chunk).reverse).reverse

/-- SHA-1 round function, by round index. -/
def sha1F (i b c d : Nat) : Nat :=
  if i < 20 then (b &&& c) ||| ((b ^^^ 4294967295) &&& d)
  else if i < 40 then b ^^^ c ^^^ d
  else if i < 60 then (b &&& c) ||| (b &&& d) ||| (c &&& d)
  else b ^^^ c ^^^ d

/-- SHA-1 round constant, by round index. -/
def sha1K (i : Nat) : Nat :=
  if i < 20 then 1518500249
  else if i < 40 then 1859775393
  else if i < 60 then 2400959708
  else 3395469782

/-- The 80 SHA-1 rounds, folding the schedule into the working state. -/
def sha1Rounds : Nat → Nat × Nat × Nat × Nat × Nat → List Nat → Nat × Nat × Nat × Nat × Nat
  | _, st, [] => st
  | i, (a, b, c, d, e), w :: ws =>
      sha1Rounds (i + 1) ((rotl32 5 a + sha1F i b c d + e + sha1K i + w) % 2 ^ 32,
        a, rotl32 30 b, c, d) ws

/-- One SHA-1 block compression. -/
def sha1Compress (st : Nat × Nat × Nat × Nat × Nat) (chunk : Bytes) :
    Nat × Nat × Nat × Nat × Nat :=
  match st, sha1Rounds 0 st (sha1Schedule chunk) with
  | (h0, h1, h2, h3, h4), (a, b, c, d, e) =>
      ((h0 + a) % 2 ^ 32, (h1 + b) % 2 ^ 32, (h2 + c) % 2 ^ 32,
       (h3 + d) % 2 ^ 32, (h4 + e) % 2 ^ 32)

/-- Iterate SHA-1 compression over 64-byte blocks; the fuel is the number of
blocks, always `padded.length / 64` at the call site. -/
def sha1Blocks : Nat → (Nat × Nat × Nat × Nat × Nat) → Bytes → Nat × Nat × Nat × Nat × Nat
  | 0, st, _ => st
  | n + 1, st, msg => sha1Blocks n (sha1Compress st (msg.take 64)) (msg.drop 64)

/-- SHA-1 of a byte string: 20-byte digest. -/
def sha1 (msg : Bytes) : Bytes :=
  let padded := mdPad 64 8 msg
  let r := sha1Blocks (padded.length / 64)
    (1732584193, 4023233417, 2562383102, 271733878, 3285377520) padded
  toBytesBE 4 r.1 ++ toBytesBE 4 r.2.1 ++ toBytesBE 4 r.2.2.1 ++
    toBytesBE 4 r.2.2.2.1 ++ toBytesBE 4 r.2.2.2.2

/-! ## SHA-256 (FIPS 180-4, as implemented by Go `crypto/sha256`) -/

/-- The 64 SHA-256 round constants. -/
def sha256K : List Nat :=
  [1116352408, 1899447441, 3049323471, 3921009573, 961987163, 1508970993, 2453635748, 2870763221,
   3624381080, 310598401, 607225278, 1426881987, 1925078388, 2162078206, 2614888103, 3248222580,
   3835390401, 4022224774, 264347078, 604807628, 770255983, 1249150122, 1555081692, 1996064986,
   2554220882, 2821834349, 2952996808, 3210313671, 3336571891, 3584528711, 113926993, 338241895,
   666307205, 773529912, 1294757372, 1396182291, 1695183700, 1986661051, 2177026350, 2456956037,
   2730485921, 2820302411, 3259730800, 3345764771, 3516065817, 3600352804, 4094571909, 275423344,
   430227734, 506948616, 659060556, 883997877, 958139571, 1322822218, 1537002063, 1747873779,
   1955562222, 2024104815, 2227730452, 2361852424, 2428436474, 2756734187, 3204031479, 3329325298]

/-- SHA-256 schedule extension (accumulator most recent first):
`sigma1 w[t-2] + w[t-7] + sigma0 w[t-15] + w[t-16] mod 2^32`. -/
def sha256SchedAux : Nat → List Nat → List Nat
  | 0, acc => acc
  | n + 1, acc =>
      sha256SchedAux n
        (((rotr32 17 (acc.getD 1 0) ^^^ rotr32 19 (acc.getD 1 0) ^^^ (acc.getD 1 0 >>> 10)) +
           acc.getD 6 0 +
           (rotr32 7 (acc.getD 14 0) ^^^ rotr32 18 (acc.getD 14 0) ^^^ (acc.getD 14 0 >>> 3)) +
           acc.getD 15 0) % 2 ^ 32 :: acc)

/-- The 64-word SHA-256 message schedule of one 64-byte chunk. -/
def sha256Schedule (chunk : Bytes) : List Nat :=
  (sha256SchedAux 48 (toWords32 chunk).reverse).reverse

/-- SHA-256 working state: eight 32-bit words. -/
structure H8 where
  a : Nat
  b : Nat
  c : Nat
  d : Nat
  e : Nat
  f : Nat
  g : Nat
  h : Nat

/-- One SHA-256 round with constant `k` and schedule word `w`. -/
def sha256Round (st : H8) (k w : Nat) : H8 :=
  let s1 := rotr32 6 st.e ^^^ rotr32 11 st.e ^^^ rotr32 25 st.e
  let ch := (st.e &&& st.f) ^^^ ((st.e ^^^ 4294967295) &&& st.g)
  let t1 := st.h + s1 + ch + k + w
  let s0 := rotr32 2 st.a ^^^ rotr32 13 st.a ^^^ rotr32 22 st.a
  let mj := (st.a &&& st.b) ^^^ (st.a &&& st.c) ^^^ (st.b &&& st.c)
  let t2 := s0 + mj
  ⟨(t1 + t2) % 2 ^ 32, st.a, st.b, st.c, (st.d + t1) % 2 ^ 32, st.e, st.f, st.g⟩

/-- The 64 SHA-256 rounds over the zipped constants/schedule. -/
def sha256Rounds : H8 → List (Nat × Nat) → H8
  | st, [] => st
  | st, (k, w) :: kws => sha256Rounds (sha256Round st k w) kws

/-- One SHA-256 block compression. -/
def sha256Compress (st : H8) (chunk : Bytes) : H8 :=
  let r := sha256Rounds st (sha256K.zip (sha256Schedule chunk))
  ⟨(st.a + r.a) % 2 ^ 32, (st.b + r.b) % 2 ^ 32, (st.c + r.c) % 2 ^ 32, (st.d + r.d) % 2 ^ 32,
   (st.e + r.e) % 2 ^ 32, (st.f + r.f) % 2 ^ 32, (st.g + r.g) % 2 ^ 32, (st.h + r.h) % 2 ^ 32⟩

/-- Iterate SHA-256 compression over 64-byte blocks (fuel = number of blocks). -/
def sha256Blocks : Nat → H8 → Bytes → H8
  | 0, st, _ => st
  | n + 1, st, msg => sha256Blocks n (sha256Compress st (msg.take 64)) (msg.drop 64)

/-- SHA-256 of a byte string: 32-byte digest. -/
def sha256 (msg : Bytes) : Bytes :=
  let padded := mdPad 64 8 msg
  let r := sha256Blocks (padded.length / 64)
    ⟨1779033703, 3144134277, 1013904242, 2773480762, 1359893119, 2600822924, 528734635, 1541459225⟩
    padded
  toBytesBE 4 r.a ++ toBytesBE 4 r.b ++ toBytesBE 4 r.c ++ toBytesBE 4 r.d ++
    toBytesBE 4 r.e ++ toBytesBE 4 r.f ++ toBytesBE 4 r.g ++ toBytesBE 4 r.h

/-! ## SHA-512 (FIPS 180-4, as implemented by Go `crypto/sha512`) -/

/-- The 80 SHA-512 round constants. -/
def sha512K : List Nat :=
  [4794697086780616226, 8158064640168781261, 13096744586834688815, 16840607885511220156,
   4131703408338449720, 6480981068601479193, 10538285296894168987, 12329834152419229976,
   15566598209576043074, 1334009975649890238, 2608012711638119052, 6128411473006802146,
   8268148722764581231, 9286055187155687089, 11230858885718282805, 13951009754708518548,
   16472876342353939154, 17275323862435702243, 1135362057144423861, 2597628984639134821,
   3308224258029322869, 5365058923640841347, 6679025012923562964, 8573033837759648693,
   10970295158949994411, 12119686244451234320, 12683024718118986047, 13788192230050041572,
   14330467153632333762, 15395433587784984357, 489312712824947311, 1452737877330783856,
   2861767655752347644, 3322285676063803686, 5560940570517711597, 5996557281743188959,
   7280758554555802590, 8532644243296465576, 9350256976987008742, 10552545826968843579,
   11727347734174303076, 12113106623233404929, 14000437183269869457, 14369950271660146224,
   15101387698204529176, 15463397548674623760, 17586052441742319658, 1182934255886127544,
   1847814050463011016, 2177327727835720531, 2830643537854262169, 3796741975233480872,
   4115178125766777443, 5681478168544905931, 6601373596472566643, 7507060721942968483,
   8399075790359081724, 8693463985226723168, 9568029438360202098, 10144078919501101548,
   10430055236837252648, 11840083180663258601, 13761210420658862357, 14299343276471374635,
   14566680578165727644, 15097957966210449927, 16922976911328602910, 17689382322260857208,
   500013540394364858, 748580250866718886, 1242879168328830382, 1977374033974150939,
   2944078676154940804, 3659926193048069267, 4368137639120453308, 4836135668995329356,
   5532061633213252278, 6448918945643986474, 6902733635092675308, 7801388544844847127]

/-- SHA-512 schedule extension (accumulator most recent first):
`sigma1 w[t-2] + w[t-7] + sigma0 w[t-15] + w[t-16] mod 2^64`. -/
def sha512SchedAux : Nat → List Nat → List Nat
  | 0, acc => acc
  | n + 1, acc =>
      sha512SchedAux n
        (((rotr64 19 (acc.getD 1 0) ^^^ rotr64 61 (acc.getD 1 0) ^^^ (acc.getD 1 0 >>> 6)) +
           acc.getD 6 0 +
           (rotr64 1 (acc.getD 14 0) ^^^ rotr64 8 (acc.getD 14 0) ^^^ (acc.getD 14 0 >>> 7)) +
           acc.getD 15 0) % 2 ^ 64 :: acc)

/-- The 80-word SHA-512 message schedule of one 128-byte chunk. -/
def sha512Schedule (chunk : Bytes) : List Nat :=
  (sha512SchedAux 64 (toWords64 chunk).reverse).reverse

/-- One SHA-512 round with constant `k` and schedule word `w`. -/
def sha512Round (st : H8) (k w : Nat) : H8 :=
  let s1 := rotr64 14 st.e ^^^ rotr64 18 st.e ^^^ rotr64 41 st.e
  let ch := (st.e &&& st.f) ^^^ ((st.e ^^^ 18446744073709551615) &&& st.g)
  let t1 := st.h + s1 + ch + k + w
  let s0 := rotr64 28 st.a ^^^ rotr64 34 st.a ^^^ rotr64 39 st.a
  let mj := (st.a &&& st.b) ^^^ (st.a &&& st.c) ^^^ (st.b &&& st.c)
  let t2 := s0 + mj
  ⟨(t1 + t2) % 2 ^ 64, st.a, st.b, st.c, (st.d + t1) % 2 ^ 64, st.e, st.f, st.g⟩

/-- The 80 SHA-512 rounds over the zipped constants/schedule. -/
def sha512Rounds : H8 → List (Nat × Nat) → H8
  | st, [] => st
  | st, (k, w) :: kws => sha512Rounds (sha512Round st k w) kws

/-- One SHA-512 block compression. -/
def sha512Compress (st : H8) (chunk : Bytes) : H8 :=
  let r := sha512Rounds st (sha512K.zip (sha512Schedule chunk))
  ⟨(st.a + r.a) % 2 ^ 64, (st.b + r.b) % 2 ^ 64, (st.c + r.c) % 2 ^ 64, (st.d + r.d) % 2 ^ 64,
   (st.e + r.e) % 2 ^ 64, (st.f + r.f) % 2 ^ 64, (st.g + r.g) % 2 ^ 64, (st.h + r.h) % 2 ^ 64⟩

/-- Iterate SHA-512 compression over 128-byte blocks (fuel = number of blocks). -/
def sha512Blocks : Nat → H8 → Bytes → H8
  | 0, st, _ => st
  | n + 1, st, msg => sha512Blocks n (sha512Compress st (msg.take 128)) (msg.drop 128)

/-- SHA-512 of a byte string: 64-byte digest. -/
def sha512 (msg : Bytes) : Bytes :=
  let padded := mdPad 128 16 msg
  let r := sha512Blocks (padded.length / 128)
    ⟨7640891576956012808, 13503953896175478587, 4354685564936845355, 11912009170470909681,
     5840696475078001361, 11170449401992604703, 2270897969802886507, 6620516959819538809⟩
    padded
  toBytesBE 8 r.a ++ toBytesBE 8 r.b ++ toBytesBE 8 r.c ++ toBytesBE 8 r.d ++
    toBytesBE 8 r.e ++ toBytesBE 8 r.f ++ toBytesBE 8 r.g ++ toBytesBE 8 r.h

/-! ## HMAC (Go `crypto/hmac`) -/

/-- HMAC over an arbitrary hash with block size `B`: keys longer than a block
are first hashed, the key is zero-padded to a block, and the digest is
`H(opad-key ++ H(ipad-key ++ msg))`. -/
def hmac (H : Bytes → Bytes) (B : Nat) (key msg : Bytes) : Bytes :=
  let k0 := if B < key.length then H key else key
  let kp := k0 ++ List.replicate (B - k0.length) 0
  H ((kp.map fun b => b ^^^ 0x5c) ++ H ((kp.map fun b => b ^^^ 0x36) ++ msg))

/-! ## HOTP engine (`hotp.go`) -/

/-- The hash algorithms an `HOTPOptions.Algorithm` can select
(`crypto/sha1`, `crypto/sha256`, `crypto/sha512` constructors in Go). -/
inductive Alg
  | sha1
  | sha256
  | sha512
deriving DecidableEq

/-- The modelled hash function of an algorithm selector. -/
def Alg.hashFn : Alg → Bytes → Bytes
  | .sha1 => Otp.sha1
  | .sha256 => Otp.sha256
  | .sha512 => Otp.sha512

/-- The HMAC block size of each algorithm (Go `hash.Hash.BlockSize`). -/
def Alg.blockSize : Alg → Nat
  | .sha1 => 64
  | .sha256 => 64
  | .sha512 => 128

/-- `HOTPOptions`: `Digits uint` (0 meaning default 6) and
`Algorithm func() hash.Hash` (`none` models the `nil` default, SHA-1). -/
structure HOTPOptions where
  Digits : Nat := 0
  Algorithm : Option Alg := none

/-- `hmacShaN`: HMAC of the counter serialized as 8 big-endian bytes of
`uint64(counter)` (two's-complement pattern of the Go `int`). -/
def hmacShaN (alg : Alg) (key : Bytes) (counter : Int) : Bytes :=
  hmac alg.hashFn alg.blockSize key (toBytesBE 8 (counter % (2 ^ 64 : Int)).toNat)

/-- `pow10`: repeated multiplication by 10 in Go `uint` (64-bit, wrapping). -/
def pow10Aux : Nat → Nat → Nat
  | 0, res => res
  | n + 1, res => pow10Aux n (res * 10 % 2 ^ 64)

/-- `pow10 n` = `10^n` computed in wrapping 64-bit `uint` arithmetic. -/
def pow10 (n : Nat) : Nat := pow10Aux n 1

/-- `dynamicTruncation` (RFC 4226 §5.4): `offset := hs[len(hs)-1] & 0xf`, then
the big-endian `uint32` at `hs[offset:offset+4]` masked to 31 bits. `none`
models the Go slice-bounds panic (empty input or `offset+4 > len(hs)`). -/
def dynamicTruncation (hs : Bytes) : Option Nat :=
  if hs.length = 0 then none
  else if (hs.getD (hs.length - 1) 0 &&& 0xf) + 4 ≤ hs.length then
    some (fromBytesBE ((hs.drop (hs.getD (hs.length - 1) 0 &&& 0xf)).take 4) &&& 2147483647)
  else none

/-- `HOTP` (hotp.go): resolve defaults (algorithm SHA-1, digits 6), then
`dynamicTruncation(hmacShaN(...)) % pow10(digits)`. `none` models a Go
panic: the dynamic-truncation slice panic, or division by zero when
`pow10 digits = 0` (which happens for `digits ≥ 64` in wrapping `uint`). -/
def HOTP (key : Bytes) (counter : Int) (opts : HOTPOptions) : Option Nat :=
  let alg := opts.Algorithm.getD .sha1
  let digits := if opts.Digits = 0 then 6 else opts.Digits
  match dynamicTruncation (hmacShaN alg key counter) with
  | none => none
  | some v => if pow10 digits = 0 then none else some (v % pow10 digits)

/-! ## TOTP engine (totp source file) -/

/-- `TOTPOptions`: embedded `HOTPOptions` plus time reference (seconds),
period (seconds, 0 meaning default 30) and step offset. -/
structure TOTPOptions where
  hotp : HOTPOptions := {}
  TimeReference : Int := 0
  Period : Int := 0
  Step : Int := 0

/-- `timePeriodCount` (RFC 6238 §4.2 `T`): Go integer division truncates
toward zero (`Int.tdiv`); times before the reference get an extra `-1`. -/
def timePeriodCount (currentTime t0 : Int) (x : Int) : Int :=
  if currentTime < t0 then Int.tdiv (currentTime - t0) x - 1
  else Int.tdiv (currentTime - t0) x

/-- `TOTP`: default the period to 30, then HOTP at counter
`timePeriodCount(t, T0, period) + step` (`t` is `time.Time.Unix()` seconds). -/
def TOTP (key : Bytes) (t : Int) (opts : TOTPOptions) : Option Nat :=
  let period := if opts.Period = 0 then 30 else opts.Period
  HOTP key (timePeriodCount t opts.TimeReference period + opts.Step) opts.hotp

/-- The RFC 4226 test-vector secret `"12345678901234567890"`. -/
def hotpSecret : Bytes := ascii "12345678901234567890"

/-- The RFC 4226 expected 6-digit codes for counters 0–9 (hotp_test.go). -/
def hotpRfcCodes : List Nat :=
  [755224, 287082, 359152, 969429, 338314, 254676, 287922, 162583, 399871, 520489]

/-! ## Key URI codec (key source file)

The codec builds on Go standard-library behaviour: `net/url` parsing,
percent-encoding, `encoding/base32` and `strconv`, each modelled below at the
byte level. -/

/-- The `otpauth` URI scheme. -/
def otpauthB : Bytes := ascii "otpauth"

/-- The `totp` key type. -/
def totpB : Bytes := ascii "totp"

/-- The `hotp` key type. -/
def hotpB : Bytes := ascii "hotp"

/-- The `secret` query key. -/
def secretB : Bytes := ascii "secret"

/-- The `issuer` query key. -/
def issuerB : Bytes := ascii "issuer"

/-- The `algorithm` query key. -/
def algorithmB : Bytes := ascii "algorithm"

/-- The `digits` query key. -/
def digitsB : Bytes := ascii "digits"

/-- The `counter` query key. -/
def counterB : Bytes := ascii "counter"

/-- The `period` query key. -/
def periodB : Bytes := ascii "period"

/-- The typed errors of the codec. The named errors correspond to the `Err*`
values of the source; `uriSyntax`, `base32Decode` and `intSyntax` stand for
the error values propagated from `net/url`, `encoding/base32` and `strconv`. -/
inductive KeyError
  | uriSyntax
  | invalidScheme
  | invalidType
  | missingSecret
  | base32Decode
  | invalidAlgorithm
  | intSyntax
  | missingCounter
deriving DecidableEq, Repr

/-- The decoded `Key` record. `Algorithm` carries the numeric value of Go's
`crypto.Hash` (`SHA1 = 3`, `SHA256 = 5`, `SHA512 = 7`, zero value 0). -/
structure Key where
  Type' : Bytes
  Label : Bytes
  Secret : Bytes
  Issuer : Bytes
  Algorithm : Nat
  Digits : Nat
  Counter : Int
  Period : Int
deriving DecidableEq, Repr

instance {e a : Type} [DecidableEq e] [DecidableEq a] : DecidableEq (Except e a) := fun x y =>
  match x, y with
  | .error x, .error y => decidable_of_iff (x = y) (by simp)
  | .error _, .ok _ => isFalse (by simp)
  | .ok _, .error _ => isFalse (by simp)
  | .ok x, .ok y => decidable_of_iff (x = y) (by simp)

/-- Split a byte string at the first occurrence of `sep`: the bytes before it
and the bytes after it, or `none` when `sep` does not occur. -/
def breakAt (sep : Nat) : Bytes → Option (Bytes × Bytes)
  | [] => none
  | b :: rest =>
      if b = sep then some ([], rest)
      else (breakAt sep rest).map fun pr => (b :: pr.1, pr.2)

/-- Split a byte string on every occurrence of `sep` (like
`strings.Split`): always at least one, possibly empty, part. -/
def splitByte (sep : Nat) : Bytes → List Bytes
  | [] => [[]]
  | b :: rest =>
      if b = sep then [] :: splitByte sep rest
      else
        match splitByte sep rest with
        | g :: gs => (b :: g) :: gs
        | [] => [[b]]

/-- Value of an ASCII hex digit (`0-9`, `A-F`, `a-f`). -/
def hexVal (b : Nat) : Option Nat :=
  if 48 ≤ b ∧ b ≤ 57 then some (b - 48)
  else if 65 ≤ b ∧ b ≤ 70 then some (b - 55)
  else if 97 ≤ b ∧ b ≤ 102 then some (b - 87)
  else none

/-- Percent-decoding (`net/url.unescape`): `%XX` becomes a byte, `+` becomes a
space in query mode only, and a malformed `%` sequence is an error. -/
def percentDecode (plusSp : Bool) : Bytes → Option Bytes
  | [] => some []
  | b :: rest =>
      if b = 37 then
        match rest with
        | h1 :: h2 :: rest2 =>
            match hexVal h1, hexVal h2, percentDecode plusSp rest2 with
            | some v1, some v2, some ds => some ((16 * v1 + v2) :: ds)
            | _, _, _ => none
        | _ => none
      else if b = 43 then
        (percentDecode plusSp rest).map fun ds => (if plusSp then 32 else 43) :: ds
      else (percentDecode plusSp rest).map fun ds => b :: ds

/-- Uppercase hex digit of a value `< 16`. -/
def hexDigitU (n : Nat) : Nat := if n < 10 then 48 + n else 55 + n

/-- Query escaping of one byte (`net/url.QueryEscape`): alphanumerics and
`-._~` kept, space becomes `+`, everything else `%XX`. -/
def queryEscapeByte (b : Nat) : Bytes :=
  if (48 ≤ b ∧ b ≤ 57) ∨ (65 ≤ b ∧ b ≤ 90) ∨ (97 ≤ b ∧ b ≤ 122) ∨
      b = 45 ∨ b = 95 ∨ b = 46 ∨ b = 126 then [b]
  else if b = 32 then [43]
  else [37, hexDigitU (b / 16), hexDigitU (b % 16)]

/-- Query escaping of a byte string. -/
def queryEscape (s : Bytes) : Bytes := s.foldr (fun b acc => queryEscapeByte b ++ acc) []

/-- One `key=value` segment of a query string (`net/url.ParseQuery`): segments
containing `;` are rejected, the segment splits at the first `=`, and both
sides are query-unescaped; a failing segment is skipped. -/
def parseQueryPair (seg : Bytes) : Option (Bytes × Bytes) :=
  if seg.contains 59 then none
  else
    match (match breakAt 61 seg with
           | some pr => pr
           | none => (seg, [])) with
    | (k, v) =>
        match percentDecode true k, percentDecode true v with
        | some k2, some v2 => some (k2, v2)
        | _, _ => none

/-- `net/url.ParseQuery` as used through `URL.Query()`: split on `&`, skip
empty segments and segments that fail to parse. -/
def parseQuery (s : Bytes) : List (Bytes × Bytes) :=
  (splitByte 38 s).foldr
    (fun seg acc =>
      if seg = [] then acc
      else
        match parseQueryPair seg with
        | some p => p :: acc
        | none => acc) []

/-- `url.Values.Get`: the first value of the key, empty when absent. -/
def queryGet (q : List (Bytes × Bytes)) (k : Bytes) : Bytes :=
  match q.find? fun p => p.1 == k with
  | some p => p.2
  | none => []

/-- `url.Values.Has`: whether the key is present. -/
def queryHas (q : List (Bytes × Bytes)) (k : Bytes) : Bool :=
  (q.find? fun p => p.1 == k).isSome

/-- Join query segments with `&`. -/
def joinAmp : List Bytes → Bytes
  | [] => []
  | [x] => x
  | x :: xs => x ++ 38 :: joinAmp xs

/-- `url.Values.Encode` on an already-sorted pair list: escape keys and
values, join `key=value` segments with `&`. -/
def encodeQuery (pairs : List (Bytes × Bytes)) : Bytes :=
  joinAmp (pairs.map fun p => queryEscape p.1 ++ 61 :: queryEscape p.2)

/-- Lowercase ASCII letters of a byte string (Go lowercases the scheme). -/
def toLowerB (s : Bytes) : Bytes :=
  s.map fun b => if 65 ≤ b ∧ b ≤ 90 then b + 32 else b

/-- Valid URI scheme: a letter followed by letters, digits, `+`, `-`, `.`. -/
def schemeValid (s : Bytes) : Bool :=
  match s with
  | [] => false
  | b :: rest =>
      ((65 ≤ b ∧ b ≤ 90) ∨ (97 ≤ b ∧ b ≤ 122)) ∧
        rest.all fun c =>
          (65 ≤ c ∧ c ≤ 90) ∨ (97 ≤ c ∧ c ≤ 122) ∨ (48 ≤ c ∧ c ≤ 57) ∨
            c = 43 ∨ c = 45 ∨ c = 46

/-- The parts of a parsed URL that the codec reads (`net/url.URL`): the
lowercased scheme, the authority taken as the host, the percent-decoded path
and the raw query. -/
structure URL where
  scheme : Bytes
  host : Bytes
  path : Bytes
  rawQuery : Bytes
deriving DecidableEq, Repr

/-- `net/url.Parse`, restricted to the parts the codec reads: reject control
bytes; strip the fragment (after the first `#`); extract and lowercase the
scheme (the bytes before the first `:` when they form a valid scheme name, an
empty leading scheme being an error); split the raw query at the first `?`;
then read `//authority/path`, an absolute path, an opaque remainder (empty
host and path), or a relative path whose first segment must not contain `:`;
the path is percent-decoded (`+` kept), a bad escape being an error. -/
def urlParse (s : Bytes) : Option URL :=
  if s.any fun b => b < 32 ∨ b = 127 then none
  else
    match (match breakAt 58 (match breakAt 35 s with | some pr => pr.1 | none => s) with
           | some (pre, post) =>
               if pre = [] then none
               else if schemeValid pre then some (toLowerB pre, post)
               else some ([], match breakAt 35 s with | some pr => pr.1 | none => s)
           | none => some ([], match breakAt 35 s with | some pr => pr.1 | none => s)) with
    | none => none
    | some (scheme, rest1) =>
        match (match breakAt 63 rest1 with | some pr => pr | none => (rest1, [])) with
        | (rest2, rawQuery) =>
            if rest2.take 2 = [47, 47] ∧ ¬(scheme = [] ∧ rest2.take 3 = [47, 47, 47]) then
              match (match breakAt 47 (rest2.drop 2) with
                     | some pr => (pr.1, 47 :: pr.2)
                     | none => (rest2.drop 2, [])) with
              | (authority, rest3) =>
                  match percentDecode false rest3 with
                  | none => none
                  | some path => some ⟨scheme, authority, path, rawQuery⟩
            else if rest2.take 1 = [47] then
              match percentDecode false rest2 with
              | none => none
              | some path => some ⟨scheme, [], path, rawQuery⟩
            else if scheme ≠ [] ∨ rest2 = [] then some ⟨scheme, [], [], rawQuery⟩
            else if (match breakAt 47 rest2 with
                     | some pr => pr.1
                     | none => rest2).contains 58 then none
            else
              match percentDecode false rest2 with
              | none => none
              | some path => some ⟨scheme, [], path, rawQuery⟩

/-- The base32 standard alphabet (RFC 4648). -/
def b32alpha : Bytes := ascii "ABCDEFGHIJKLMNOPQRSTUVWXYZ234567"

/-- The alphabet byte of a 5-bit value. -/
def b32Char (n : Nat) : Nat := b32alpha.getD n 65

/-- The 5-bit value of an alphabet byte. -/
def b32Val (c : Nat) : Option Nat :=
  if 65 ≤ c ∧ c ≤ 90 then some (c - 65)
  else if 50 ≤ c ∧ c ≤ 55 then some (c - 50 + 26)
  else none

/-- The 5-bit value of an alphabet byte, defaulting to 0. -/
def b32ValD (c : Nat) : Nat := (b32Val c).getD 0

/-- Base32 encoding without padding (`base32.StdEncoding.WithPadding(NoPadding)`):
5-byte groups become 8 characters; tail groups of 1/2/3/4 bytes become
2/4/5/7 characters. -/
def b32encode : Bytes → Bytes
  | [] => []
  | [b0] => [b32Char (b0 / 8), b32Char (b0 % 8 * 4)]
  | [b0, b1] =>
      [b32Char (b0 / 8), b32Char (b0 % 8 * 4 + b1 / 64), b32Char (b1 % 64 / 2),
       b32Char (b1 % 2 * 16)]
  | [b0, b1, b2] =>
      [b32Char (b0 / 8), b32Char (b0 % 8 * 4 + b1 / 64), b32Char (b1 % 64 / 2),
       b32Char (b1 % 2 * 16 + b2 / 16), b32Char (b2 % 16 * 2)]
  | [b0, b1, b2, b3] =>
      [b32Char (b0 / 8), b32Char (b0 % 8 * 4 + b1 / 64), b32Char (b1 % 64 / 2),
       b32Char (b1 % 2 * 16 + b2 / 16), b32Char (b2 % 16 * 2 + b3 / 128),
       b32Char (b3 % 128 / 4), b32Char (b3 % 4 * 8)]
  | b0 :: b1 :: b2 :: b3 :: b4 :: rest =>
      [b32Char (b0 / 8), b32Char (b0 % 8 * 4 + b1 / 64), b32Char (b1 % 64 / 2),
       b32Char (b1 % 2 * 16 + b2 / 16), b32Char (b2 % 16 * 2 + b3 / 128),
       b32Char (b3 % 128 / 4), b32Char (b3 % 4 * 8 + b4 / 32), b32Char (b4 % 32)] ++
        b32encode rest

/-- Byte reassembly of base32 decoding, characters assumed valid: 8-character
groups become 5 bytes; valid tails of 2/4/5/7 characters become 1/2/3/4
bytes. -/
def b32decodeRaw : Bytes → Bytes
  | c0 :: c1 :: c2 :: c3 :: c4 :: c5 :: c6 :: c7 :: rest =>
      [b32ValD c0 * 8 + b32ValD c1 / 4,
       b32ValD c1 % 4 * 64 + b32ValD c2 * 2 + b32ValD c3 / 16,
       b32ValD c3 % 16 * 16 + b32ValD c4 / 2,
       b32ValD c4 % 2 * 128 + b32ValD c5 * 4 + b32ValD c6 / 8,
       b32ValD c6 % 8 * 32 + b32ValD c7] ++ b32decodeRaw rest
  | [c0, c1] => [b32ValD c0 * 8 + b32ValD c1 / 4]
  | [c0, c1, c2, c3] =>
      [b32ValD c0 * 8 + b32ValD c1 / 4,
       b32ValD c1 % 4 * 64 + b32ValD c2 * 2 + b32ValD c3 / 16]
  | [c0, c1, c2, c3, c4] =>
      [b32ValD c0 * 8 + b32ValD c1 / 4,
       b32ValD c1 % 4 * 64 + b32ValD c2 * 2 + b32ValD c3 / 16,
       b32ValD c3 % 16 * 16 + b32ValD c4 / 2]
  | [c0, c1, c2, c3, c4, c5, c6] =>
      [b32ValD c0 * 8 + b32ValD c1 / 4,
       b32ValD c1 % 4 * 64 + b32ValD c2 * 2 + b32ValD c3 / 16,
       b32ValD c3 % 16 * 16 + b32ValD c4 / 2,
       b32ValD c4 % 2 * 128 + b32ValD c5 * 4 + b32ValD c6 / 8]
  | _ => []

/-- Valid lengths of unpadded base32 text: not 1, 3 or 6 modulo 8. -/
def b32LenOk (n : Nat) : Bool := n % 8 ≠ 1 ∧ n % 8 ≠ 3 ∧ n % 8 ≠ 6

/-- Base32 decoding without padding: every character must be in the alphabet
and the length must be reachable by the encoder; `none` is the
`CorruptInputError`. -/
def b32decode (s : Bytes) : Option Bytes :=
  if (s.all fun c => (b32Val c).isSome) && b32LenOk s.length then some (b32decodeRaw s)
  else none

/-- Decimal digit accumulation shared by the `strconv` parsers: `none` on the
first non-digit byte. -/
def parseDigitsAux : Bytes → Nat → Option Nat
  | [], acc => some acc
  | b :: rest, acc =>
      if 48 ≤ b ∧ b ≤ 57 then parseDigitsAux rest (acc * 10 + (b - 48)) else none

/-- `strconv.ParseUint(s, 10, 0)` (`uint` is 64-bit): digits only, nonempty,
error past `2^64 - 1`. -/
def parseUintGo (s : Bytes) : Option Nat :=
  if s = [] then none
  else
    match parseDigitsAux s 0 with
    | some v => if v < 2 ^ 64 then some v else none
    | none => none

/-- `strconv.ParseInt(s, 10, 0)` (`int` is 64-bit): optional sign, digits,
error outside `[-2^63, 2^63 - 1]`. -/
def parseIntGo (s : Bytes) : Option Int :=
  if s = [] then none
  else if s.headD 0 = 43 then
    if s.tail = [] then none
    else
      match parseDigitsAux s.tail 0 with
      | some v => if v ≤ 2 ^ 63 - 1 then some (v : Int) else none
      | none => none
  else if s.headD 0 = 45 then
    if s.tail = [] then none
    else
      match parseDigitsAux s.tail 0 with
      | some v => if v ≤ 2 ^ 63 then some (-(v : Int)) else none
      | none => none
  else
    match parseDigitsAux s 0 with
    | some v => if v ≤ 2 ^ 63 - 1 then some (v : Int) else none
    | none => none

/-- Decimal digits of a natural number, most significant first; the fuel (32
at every call site) covers every 64-bit value. -/
def natDigits : Nat → Nat → Bytes
  | 0, _ => []
  | fuel + 1, n => if n < 10 then [48 + n] else natDigits fuel (n / 10) ++ [48 + n % 10]

/-- `strconv.FormatInt(v, 10)`. -/
def formatInt (v : Int) : Bytes :=
  if v < 0 then 45 :: natDigits 32 v.natAbs else natDigits 32 v.toNat

/-- `crypto.Hash` → query value: the zero value and `SHA1` (3) serialize as
`"SHA1"`, `SHA256` (5) and `SHA512` (7) as their names; anything else is
unknown. -/
def algToString (h : Nat) : Option Bytes :=
  if h = 0 ∨ h = 3 then some (ascii "SHA1")
  else if h = 5 then some (ascii "SHA256")
  else if h = 7 then some (ascii "SHA512")
  else none

/-- Query value → `crypto.Hash`: only `"SHA1"`, `"SHA256"`, `"SHA512"`. -/
def algFromString (s : Bytes) : Option Nat :=
  if s = ascii "SHA1" then some 3
  else if s = ascii "SHA256" then some 5
  else if s = ascii "SHA512" then some 7
  else none

/-- `ParseURI` (key source file): the validation chain in source order —
URL syntax, scheme, type, label extraction (`parsed.Path[1:]`, a Go panic on
an empty path, modelled as `none`), secret presence, base32 decoding, issuer,
algorithm, digits, counter (hotp only) or period (totp only). -/
def ParseURI (uri : Bytes) : Option (Except KeyError Key) :=
  match urlParse uri with
  | none => some (.error .uriSyntax)
  | some parsed =>
      if parsed.scheme ≠ otpauthB then some (.error .invalidScheme)
      else if parsed.host ≠ totpB ∧ parsed.host ≠ hotpB then some (.error .invalidType)
      else if parsed.path = [] then none
      else
        if ¬ queryHas (parseQuery parsed.rawQuery) secretB ∨
            queryGet (parseQuery parsed.rawQuery) secretB = [] then
          some (.error .missingSecret)
        else
          match b32decode (queryGet (parseQuery parsed.rawQuery) secretB) with
          | none => some (.error .base32Decode)
          | some secret =>
              match (if queryHas (parseQuery parsed.rawQuery) algorithmB then
                       algFromString (queryGet (parseQuery parsed.rawQuery) algorithmB)
                     else some 3) with
              | none => some (.error .invalidAlgorithm)
              | some algorithm =>
                  match (if queryHas (parseQuery parsed.rawQuery) digitsB then
                           parseUintGo (queryGet (parseQuery parsed.rawQuery) digitsB)
                         else some 6) with
                  | none => some (.error .intSyntax)
                  | some digits =>
                      if parsed.host = hotpB then
                        if ¬ queryHas (parseQuery parsed.rawQuery) counterB then
                          some (.error .missingCounter)
                        else
                          match parseIntGo (queryGet (parseQuery parsed.rawQuery) counterB) with
                          | none => some (.error .intSyntax)
                          | some counter =>
                              some (.ok ⟨parsed.host, parsed.path.drop 1, secret,
                                queryGet (parseQuery parsed.rawQuery) issuerB, algorithm, digits,
                                counter, 0⟩)
                      else
                        match (if queryHas (parseQuery parsed.rawQuery) periodB then
                                 parseIntGo (queryGet (parseQuery parsed.rawQuery) periodB)
                               else some 30) with
                        | none => some (.error .intSyntax)
                        | some period =>
                            some (.ok ⟨parsed.host, parsed.path.drop 1, secret,
                              queryGet (parseQuery parsed.rawQuery) issuerB, algorithm, digits,
                              0, period⟩)

/-- `Key.URI` (key source file): fail on an unknown type, an empty secret or
an unknown algorithm; otherwise render
`otpauth://type/label?query` where the query holds, in `url.Values.Encode`
sorted key order: `algorithm` always; `counter` for hotp; `issuer` when the
issuer is nonempty or (the digits-branch slip of the source) the digit count
is nonzero; `period` for totp when nonzero; `secret` always (base32). The
label is interpolated verbatim, without percent-encoding. -/
def KeyURI (key : Key) : Except KeyError Bytes :=
  if key.Type' ≠ hotpB ∧ key.Type' ≠ totpB then .error .invalidType
  else if key.Secret.length = 0 then .error .missingSecret
  else
    match algToString key.Algorithm with
    | none => .error .invalidAlgorithm
    | some algStr =>
        .ok (ascii "otpauth://" ++ key.Type' ++ 47 :: key.Label ++ 63 ::
          encodeQuery
            ([(algorithmB, algStr)] ++
              (if key.Type' = hotpB then [(counterB, formatInt key.Counter)] else []) ++
              (if key.Issuer ≠ [] ∨ key.Digits ≠ 0 then [(issuerB, key.Issuer)] else []) ++
              (if key.Type' ≠ hotpB ∧ key.Period ≠ 0 then [(periodB, formatInt key.Period)]
               else []) ++
              [(secretB, b32encode key.Secret)]))

/-- The parsed key of `otpauth://totp/a%3Fx?secret=ME`: label `a?x` (percent-
decoded), secret `"a"`, all other fields at their decode defaults. -/
def cexKey : Key := ⟨totpB, ascii "a?x", [97], [], 3, 6, 0, 30⟩

/-- The key actually obtained by re-parsing `cexKey`'s serialized URI: the
unencoded `?` in the label truncates it to `a`. -/
def cexKey2 : Key := ⟨totpB, ascii "a", [97], [], 3, 6, 0, 30⟩

/-! ## Supporting lemmas -/

theorem toBytesBE_length (n x : Nat) : (toBytesBE n x).length = n := by
  induction n generalizing x with
  | zero => rfl
  | succ n ih => simp [toBytesBE, ih]

theorem sha1_length (msg : Bytes) : (sha1 msg).length = 20 := by
  simp [sha1, toBytesBE_length]

theorem sha256_length (msg : Bytes) : (sha256 msg).length = 32 := by
  simp [sha256, toBytesBE_length]

theorem sha512_length (msg : Bytes) : (sha512 msg).length = 64 := by
  simp [sha512, toBytesBE_length]

theorem hashFn_length (a : Alg) (msg : Bytes) : 20 ≤ (a.hashFn msg).length := by
  cases a <;> simp [Alg.hashFn, sha1_length, sha256_length, sha512_length]

theorem hmacShaN_length (a : Alg) (key : Bytes) (c : Int) :
    20 ≤ (hmacShaN a key c).length := by
  unfold hmacShaN hmac
  exact hashFn_length a _

theorem dynamicTruncation_isSome {hs : Bytes} (h : 20 ≤ hs.length) :
    ∃ v, dynamicTruncation hs = some v ∧ v ≤ 2147483647 := by
  unfold dynamicTruncation
  have hoff : hs.getD (hs.length - 1) 0 &&& 0xf ≤ 0xf := Nat.and_le_right
  rw [if_neg (by omega), if_pos (by omega)]
  exact ⟨_, rfl, Nat.and_le_right⟩

theorem pow10Aux_eq (n : Nat) : ∀ res, res < 2 ^ 64 → pow10Aux n res = res * 10 ^ n % 2 ^ 64 := by
  induction n with
  | zero => intro res h; simp only [pow10Aux, pow_zero, Nat.mul_one]; omega
  | succ n ih =>
      intro res h
      rw [pow10Aux, ih _ (Nat.mod_lt _ (by norm_num)), Nat.mod_mul_mod]
      ring_nf

theorem pow10_eq (n : Nat) : pow10 n = 10 ^ n % 2 ^ 64 := by
  simpa using pow10Aux_eq n 1 (by norm_num)

theorem pow10_pos : ∀ d < 64, 0 < pow10 d := by decide

theorem pow10_big : ∀ d < 64, 10 ≤ d → 2147483647 < pow10 d := by decide

/-- Characterization of `HOTP`: the dynamic truncation of the HMAC always
yields a 31-bit value `v`, and the result is `v % pow10 digits` unless
`pow10 digits` wrapped to zero (the division-by-zero panic). -/
theorem HOTP_char (key : Bytes) (c : Int) (opts : HOTPOptions) :
    ∃ v, v ≤ 2147483647 ∧
      dynamicTruncation (hmacShaN (opts.Algorithm.getD .sha1) key c) = some v ∧
      HOTP key c opts =
        (if pow10 (if opts.Digits = 0 then 6 else opts.Digits) = 0 then none
         else some (v % pow10 (if opts.Digits = 0 then 6 else opts.Digits))) := by
  obtain ⟨v, hv, hvle⟩ := dynamicTruncation_isSome (hmacShaN_length (opts.Algorithm.getD .sha1) key c)
  refine ⟨v, hvle, hv, ?_⟩
  unfold HOTP
  simp only [hv]

/-- `Int.tdiv` of a negative numerator by a positive divisor, in terms of
floor division: one more than the floor quotient, except at exact multiples. -/
theorem tdiv_of_neg {d p : Int} (hd : d < 0) (hp : 0 < p) :
    d.tdiv p = d / p + (if p ∣ d then 0 else 1) := by
  rcases em (p ∣ d) with hdvd | hdvd
  · simp [hdvd, Int.tdiv_eq_ediv_of_dvd hdvd]
  · simp only [hdvd, if_false]
    have hn : (0 : Int) ≤ -d := by omega
    have htd : d.tdiv p = -((-d).tdiv p) := by
      have h := Int.neg_tdiv (-d) p
      rw [neg_neg] at h
      exact h
    have hte : (-d).tdiv p = (-d) / p := Int.tdiv_eq_ediv hn (le_of_lt hp)
    have hnd : ¬ p ∣ (-d) := fun h => hdvd (dvd_neg.mp h)
    have hr0 : 0 ≤ (-d) % p := Int.emod_nonneg _ (by omega)
    have hr1 : (-d) % p < p := Int.emod_lt_of_pos _ hp
    have hrne : (-d) % p ≠ 0 := fun h => hnd (Int.dvd_of_emod_eq_zero h)
    have h2 := Int.emod_add_ediv (-d) p
    have hkey : d / p = -((-d) / p) - 1 := by
      have heq : (p - (-d) % p) + p * (-((-d) / p) - 1) = d := by linear_combination -h2
      exact ((Int.ediv_emod_unique hp).mpr ⟨heq, by omega, by omega⟩).1
    rw [htd, hte, hkey]
    ring

/-- The counter shift property of `timePeriodCount`, valid as long as the
shift does not cross the reference time. -/
theorem timePeriodCount_shift (t ref p s : Int) (hp : 0 < p)
    (h : (ref ≤ t ∧ ref ≤ t + s * p) ∨ (t < ref ∧ t + s * p < ref)) :
    timePeriodCount (t + s * p) ref p = timePeriodCount t ref p + s := by
  unfold timePeriodCount
  have e1 : t + s * p - ref = (t - ref) + s * p := by ring
  rcases h with ⟨h1, h2⟩ | ⟨h1, h2⟩
  · rw [if_neg (by omega), if_neg (by omega),
      Int.tdiv_eq_ediv (by omega) (by omega), Int.tdiv_eq_ediv (by omega) (by omega), e1,
      Int.add_mul_ediv_right _ _ (by omega)]
  · rw [if_pos (by omega), if_pos (by omega),
      tdiv_of_neg (by omega) hp, tdiv_of_neg (by omega) hp, e1,
      Int.add_mul_ediv_right _ _ (by omega)]
    simp only [dvd_add_left (dvd_mul_left p s)]
    ring

theorem percentDecode_cons (plusSp : Bool) (b : Nat) (rest : Bytes) :
    percentDecode plusSp (b :: rest) =
      (if b = 37 then
        match rest with
        | h1 :: h2 :: rest2 =>
            match hexVal h1, hexVal h2, percentDecode plusSp rest2 with
            | some v1, some v2, some ds => some ((16 * v1 + v2) :: ds)
            | _, _, _ => none
        | _ => none
      else if b = 43 then
        (percentDecode plusSp rest).map fun ds => (if plusSp then 32 else 43) :: ds
      else (percentDecode plusSp rest).map fun ds => b :: ds) := by
  rw [percentDecode.eq_def]
  rfl

theorem breakAt_append {sep : Nat} {pre : Bytes} (post : Bytes) (h : sep ∉ pre) :
    breakAt sep (pre ++ sep :: post) = some (pre, post) := by
  induction pre with
  | nil => simp [breakAt]
  | cons b rest ih =>
      have hb : b ≠ sep := by simp at h; omega
      have ih2 := ih (by simp at h; tauto)
      simp [breakAt, if_neg hb, List.append_eq, ih2]

theorem breakAt_none {sep : Nat} {s : Bytes} (h : sep ∉ s) : breakAt sep s = none := by
  induction s with
  | nil => rfl
  | cons b rest ih =>
      have hb : b ≠ sep := by simp at h; omega
      have ih2 := ih (by simp at h; tauto)
      simp [breakAt, if_neg hb, List.append_eq, ih2]

theorem splitByte_no_sep {sep : Nat} {s : Bytes} (h : sep ∉ s) : splitByte sep s = [s] := by
  induction s with
  | nil => rfl
  | cons b rest ih =>
      have hb : b ≠ sep := by simp at h; omega
      have ih2 := ih (by simp at h; tauto)
      simp [splitByte, if_neg hb, List.append_eq, ih2]

theorem splitByte_sep_append {sep : Nat} {x : Bytes} (ys : Bytes) (h : sep ∉ x) :
    splitByte sep (x ++ sep :: ys) = x :: splitByte sep ys := by
  induction x with
  | nil => simp [splitByte]
  | cons b rest ih =>
      have hb : b ≠ sep := by simp at h; omega
      have ih2 := ih (by simp at h; tauto)
      simp [splitByte, if_neg hb, List.append_eq, ih2]

theorem splitByte_joinAmp : ∀ (segs : List Bytes), segs ≠ [] →
    (∀ seg ∈ segs, (38 : Nat) ∉ seg) → splitByte 38 (joinAmp segs) = segs
  | [], h, _ => absurd rfl h
  | [x], _, hn => by
      simp only [joinAmp]
      exact splitByte_no_sep (hn x (by simp))
  | x :: y :: rest, _, hn => by
      show splitByte 38 (x ++ 38 :: joinAmp (y :: rest)) = x :: (y :: rest)
      rw [splitByte_sep_append _ (hn x (by simp)),
        splitByte_joinAmp (y :: rest) (by simp) (fun seg hs => hn seg (by simp [hs]))]

theorem hexVal_hexDigitU : ∀ n < 16, hexVal (hexDigitU n) = some n := by decide

theorem percentDecode_false_verbatim {s : Bytes} (h : (37 : Nat) ∉ s) :
    percentDecode false s = some s := by
  induction s with
  | nil => rfl
  | cons b rest ih =>
      have hb : b ≠ 37 := by simp at h; omega
      have ih2 := ih (by simp at h; tauto)
      rw [percentDecode_cons, if_neg hb]
      rcases em (b = 43) with h43 | h43
      · subst h43
        simp [ih2]
      · rw [if_neg h43, ih2]
        rfl

theorem percentDecode_queryEscape : ∀ (v : Bytes), (∀ b ∈ v, b < 256) →
    percentDecode true (queryEscape v) = some v := by
  intro v
  induction v with
  | nil => intro _; rfl
  | cons b rest ih =>
      intro h
      have hb : b < 256 := h b (by simp)
      have ih2 := ih fun x hx => h x (by simp [hx])
      show percentDecode true (queryEscapeByte b ++ queryEscape rest) = some (b :: rest)
      unfold queryEscapeByte
      rcases em ((48 ≤ b ∧ b ≤ 57) ∨ (65 ≤ b ∧ b ≤ 90) ∨ (97 ≤ b ∧ b ≤ 122) ∨
          b = 45 ∨ b = 95 ∨ b = 46 ∨ b = 126) with hu | hu
      · rw [if_pos hu]
        have h37 : b ≠ 37 := by omega
        have h43 : b ≠ 43 := by omega
        rw [List.singleton_append, percentDecode_cons, if_neg h37, if_neg h43, ih2]
        rfl
      · rw [if_neg hu]
        rcases em (b = 32) with h32 | h32
        · rw [if_pos h32, h32]
          rw [List.singleton_append, percentDecode_cons, if_neg (by omega), if_pos rfl, ih2]
          rfl
        · rw [if_neg h32]
          rw [List.cons_append, List.cons_append, List.cons_append, percentDecode_cons,
            if_pos rfl, List.nil_append]
          simp only [hexVal_hexDigitU (b / 16) (by omega), hexVal_hexDigitU (b % 16) (by omega),
            ih2]
          have hbb : 16 * (b / 16) + b % 16 = b := by omega
          rw [hbb]

theorem queryEscape_mem : ∀ (v : Bytes), (∀ b ∈ v, b < 256) →
    ∀ c ∈ queryEscape v, 37 ≤ c ∧ c ≤ 126 ∧ c ≠ 38 ∧ c ≠ 59 ∧ c ≠ 61 ∧ c ≠ 63 ∧ c ≠ 47 := by
  intro v
  induction v with
  | nil => intro _ c hc; simp [queryEscape] at hc
  | cons b rest ih =>
      intro h c hc
      have hb : b < 256 := h b (by simp)
      have ih2 := ih fun x hx => h x (by simp [hx])
      have hc2 : c ∈ queryEscapeByte b ∨ c ∈ queryEscape rest := by
        have he : queryEscape (b :: rest) = queryEscapeByte b ++ queryEscape rest := rfl
        rw [he] at hc
        simpa using hc
      rcases hc2 with hc2 | hc2
      · unfold queryEscapeByte at hc2
        rcases em ((48 ≤ b ∧ b ≤ 57) ∨ (65 ≤ b ∧ b ≤ 90) ∨ (97 ≤ b ∧ b ≤ 122) ∨
            b = 45 ∨ b = 95 ∨ b = 46 ∨ b = 126) with hu | hu
        · rw [if_pos hu] at hc2
          simp at hc2
          omega
        · rw [if_neg hu] at hc2
          rcases em (b = 32) with h32 | h32
          · rw [if_pos h32] at hc2
            simp at hc2
            omega
          · rw [if_neg h32] at hc2
            simp at hc2
            rcases hc2 with rfl | rfl | rfl
            · omega
            · have h1 : b / 16 < 16 := by omega
              unfold hexDigitU
              split <;> omega
            · have h2 : b % 16 < 16 := by omega
              unfold hexDigitU
              split <;> omega
      · exact ih2 c hc2

theorem parseQueryPair_encode (k v : Bytes) (hk : ∀ b ∈ k, b < 256) (hv : ∀ b ∈ v, b < 256) :
    parseQueryPair (queryEscape k ++ 61 :: queryEscape v) = some (k, v) := by
  have hkm := queryEscape_mem k hk
  have hvm := queryEscape_mem v hv
  have hc : ¬ (queryEscape k ++ 61 :: queryEscape v).contains 59 = true := by
    rw [List.contains_iff_exists_mem_beq]
    rintro ⟨x, hx, hbeq⟩
    have hx59 : (59 : Nat) = x := by simpa using hbeq
    subst hx59
    simp only [List.mem_append, List.mem_cons] at hx
    rcases hx with h | h | h
    · exact absurd ((hkm 59 h).2.2.2.1) (by omega)
    · omega
    · exact absurd ((hvm 59 h).2.2.2.1) (by omega)
  have h61 : (61 : Nat) ∉ queryEscape k := fun h => absurd ((hkm 61 h).2.2.2.2.1) (by omega)
  unfold parseQueryPair
  rw [if_neg hc, breakAt_append _ h61]
  simp only [percentDecode_queryEscape k hk, percentDecode_queryEscape v hv]

theorem parseQuery_fold (pairs : List (Bytes × Bytes))
    (hb : ∀ p ∈ pairs, (∀ b ∈ p.1, b < 256) ∧ (∀ b ∈ p.2, b < 256)) :
    (pairs.map fun p => queryEscape p.1 ++ 61 :: queryEscape p.2).foldr
      (fun seg acc =>
        if seg = [] then acc
        else
          match parseQueryPair seg with
          | some p => p :: acc
          | none => acc) [] = pairs := by
  induction pairs with
  | nil => rfl
  | cons p rest ih =>
      have hbp := hb p (by simp)
      have ih2 := ih fun q hq => hb q (by simp [hq])
      simp only [List.map_cons, List.foldr_cons]
      rw [if_neg (by simp), parseQueryPair_encode p.1 p.2 hbp.1 hbp.2, ih2]

theorem parseQuery_encodeQuery (pairs : List (Bytes × Bytes)) (hne : pairs ≠ [])
    (hb : ∀ p ∈ pairs, (∀ b ∈ p.1, b < 256) ∧ (∀ b ∈ p.2, b < 256)) :
    parseQuery (encodeQuery pairs) = pairs := by
  unfold parseQuery encodeQuery
  rw [splitByte_joinAmp _ (by simpa using hne) ?hsegs]
  case hsegs =>
    intro seg hseg
    simp only [List.mem_map] at hseg
    obtain ⟨p, hp, rfl⟩ := hseg
    intro hmem
    simp only [List.mem_append, List.mem_cons] at hmem
    rcases hmem with h | h | h
    · exact absurd ((queryEscape_mem p.1 (hb p hp).1 38 h).2.2.1) (by omega)
    · omega
    · exact absurd ((queryEscape_mem p.2 (hb p hp).2 38 h).2.2.1) (by omega)
  exact parseQuery_fold pairs hb

theorem b32ValD_b32Char : ∀ n < 32, b32ValD (b32Char n) = n := by decide

theorem b32Val_b32Char_isSome : ∀ n < 32, (b32Val (b32Char n)).isSome = true := by decide

theorem b32ValD_lt (c : Nat) : b32ValD c < 32 := by
  unfold b32ValD b32Val
  split_ifs <;> simp <;> omega

theorem b32Char_lt (n : Nat) : b32Char n < 256 := by
  rcases em (n < 32) with h | h
  · have hall : ∀ m < 32, b32Char m < 256 := by decide
    exact hall n h
  · unfold b32Char
    rw [List.getD_eq_default]
    · omega
    · have : b32alpha.length = 32 := by decide
      omega

theorem b32decodeRaw_encode : ∀ (s : Bytes), (∀ b ∈ s, b < 256) →
    b32decodeRaw (b32encode s) = s
  | [], _ => rfl
  | [b0], h => by
      have h0 : b0 < 256 := h b0 (by simp)
      show b32decodeRaw [b32Char (b0 / 8), b32Char (b0 % 8 * 4)] = [b0]
      show [b32ValD (b32Char (b0 / 8)) * 8 + b32ValD (b32Char (b0 % 8 * 4)) / 4] = [b0]
      rw [b32ValD_b32Char _ (by omega), b32ValD_b32Char _ (by omega)]
      congr 1
      omega
  | [b0, b1], h => by
      have h0 : b0 < 256 := h b0 (by simp)
      have h1 : b1 < 256 := h b1 (by simp)
      show [b32ValD (b32Char (b0 / 8)) * 8 + b32ValD (b32Char (b0 % 8 * 4 + b1 / 64)) / 4,
          b32ValD (b32Char (b0 % 8 * 4 + b1 / 64)) % 4 * 64 + b32ValD (b32Char (b1 % 64 / 2)) * 2 +
            b32ValD (b32Char (b1 % 2 * 16)) / 16] = [b0, b1]
      rw [b32ValD_b32Char _ (by omega), b32ValD_b32Char _ (by omega),
        b32ValD_b32Char _ (by omega), b32ValD_b32Char _ (by omega)]
      simp only [List.cons.injEq, and_true]
      omega
  | [b0, b1, b2], h => by
      have h0 : b0 < 256 := h b0 (by simp)
      have h1 : b1 < 256 := h b1 (by simp)
      have h2 : b2 < 256 := h b2 (by simp)
      show [b32ValD (b32Char (b0 / 8)) * 8 + b32ValD (b32Char (b0 % 8 * 4 + b1 / 64)) / 4,
          b32ValD (b32Char (b0 % 8 * 4 + b1 / 64)) % 4 * 64 + b32ValD (b32Char (b1 % 64 / 2)) * 2 +
            b32ValD (b32Char (b1 % 2 * 16 + b2 / 16)) / 16,
          b32ValD (b32Char (b1 % 2 * 16 + b2 / 16)) % 16 * 16 +
            b32ValD (b32Char (b2 % 16 * 2)) / 2] = [b0, b1, b2]
      rw [b32ValD_b32Char _ (by omega), b32ValD_b32Char _ (by omega),
        b32ValD_b32Char _ (by omega), b32ValD_b32Char _ (by omega),
        b32ValD_b32Char _ (by omega)]
      simp only [List.cons.injEq, and_true]
      omega
  | [b0, b1, b2, b3], h => by
      have h0 : b0 < 256 := h b0 (by simp)
      have h1 : b1 < 256 := h b1 (by simp)
      have h2 : b2 < 256 := h b2 (by simp)
      have h3 : b3 < 256 := h b3 (by simp)
      show [b32ValD (b32Char (b0 / 8)) * 8 + b32ValD (b32Char (b0 % 8 * 4 + b1 / 64)) / 4,
          b32ValD (b32Char (b0 % 8 * 4 + b1 / 64)) % 4 * 64 + b32ValD (b32Char (b1 % 64 / 2)) * 2 +
            b32ValD (b32Char (b1 % 2 * 16 + b2 / 16)) / 16,
          b32ValD (b32Char (b1 % 2 * 16 + b2 / 16)) % 16 * 16 +
            b32ValD (b32Char (b2 % 16 * 2 + b3 / 128)) / 2,
          b32ValD (b32Char (b2 % 16 * 2 + b3 / 128)) % 2 * 128 +
            b32ValD (b32Char (b3 % 128 / 4)) * 4 + b32ValD (b32Char (b3 % 4 * 8)) / 8] =
        [b0, b1, b2, b3]
      rw [b32ValD_b32Char _ (by omega), b32ValD_b32Char _ (by omega),
        b32ValD_b32Char _ (by omega), b32ValD_b32Char _ (by omega),
        b32ValD_b32Char _ (by omega), b32ValD_b32Char _ (by omega),
        b32ValD_b32Char _ (by omega)]
      simp only [List.cons.injEq, and_true]
      omega
  | b0 :: b1 :: b2 :: b3 :: b4 :: rest, h => by
      have h0 : b0 < 256 := h b0 (by simp)
      have h1 : b1 < 256 := h b1 (by simp)
      have h2 : b2 < 256 := h b2 (by simp)
      have h3 : b3 < 256 := h b3 (by simp)
      have h4 : b4 < 256 := h b4 (by simp)
      have ih := b32decodeRaw_encode rest fun b hb => h b (by simp [hb])
      show b32decodeRaw
          (b32Char (b0 / 8) :: b32Char (b0 % 8 * 4 + b1 / 64) :: b32Char (b1 % 64 / 2) ::
            b32Char (b1 % 2 * 16 + b2 / 16) :: b32Char (b2 % 16 * 2 + b3 / 128) ::
            b32Char (b3 % 128 / 4) :: b32Char (b3 % 4 * 8 + b4 / 32) :: b32Char (b4 % 32) ::
            b32encode rest) = b0 :: b1 :: b2 :: b3 :: b4 :: rest
      show [b32ValD (b32Char (b0 / 8)) * 8 + b32ValD (b32Char (b0 % 8 * 4 + b1 / 64)) / 4,
          b32ValD (b32Char (b0 % 8 * 4 + b1 / 64)) % 4 * 64 + b32ValD (b32Char (b1 % 64 / 2)) * 2 +
            b32ValD (b32Char (b1 % 2 * 16 + b2 / 16)) / 16,
          b32ValD (b32Char (b1 % 2 * 16 + b2 / 16)) % 16 * 16 +
            b32ValD (b32Char (b2 % 16 * 2 + b3 / 128)) / 2,
          b32ValD (b32Char (b2 % 16 * 2 + b3 / 128)) % 2 * 128 +
            b32ValD (b32Char (b3 % 128 / 4)) * 4 + b32ValD (b32Char (b3 % 4 * 8 + b4 / 32)) / 8,
          b32ValD (b32Char (b3 % 4 * 8 + b4 / 32)) % 8 * 32 + b32ValD (b32Char (b4 % 32))] ++
          b32decodeRaw (b32encode rest) = b0 :: b1 :: b2 :: b3 :: b4 :: rest
      rw [b32ValD_b32Char _ (by omega), b32ValD_b32Char _ (by omega),
        b32ValD_b32Char _ (by omega), b32ValD_b32Char _ (by omega),
        b32ValD_b32Char _ (by omega), b32ValD_b32Char _ (by omega),
        b32ValD_b32Char _ (by omega), b32ValD_b32Char _ (by omega), ih]
      have e0 : b0 / 8 * 8 + (b0 % 8 * 4 + b1 / 64) / 4 = b0 := by omega
      have e1 : (b0 % 8 * 4 + b1 / 64) % 4 * 64 + b1 % 64 / 2 * 2 +
          (b1 % 2 * 16 + b2 / 16) / 16 = b1 := by omega
      have e2 : (b1 % 2 * 16 + b2 / 16) % 16 * 16 + (b2 % 16 * 2 + b3 / 128) / 2 = b2 := by omega
      have e3 : (b2 % 16 * 2 + b3 / 128) % 2 * 128 + b3 % 128 / 4 * 4 +
          (b3 % 4 * 8 + b4 / 32) / 8 = b3 := by omega
      have e4 : (b3 % 4 * 8 + b4 / 32) % 8 * 32 + b4 % 32 = b4 := by omega
      rw [e0, e1, e2, e3, e4]
      rfl

theorem b32encode_valid : ∀ (s : Bytes), (∀ b ∈ s, b < 256) →
    ∀ c ∈ b32encode s, (b32Val c).isSome = true
  | [], _ => by simp [b32encode]
  | [b0], h => by
      have h0 : b0 < 256 := h b0 (by simp)
      intro c hc
      simp only [b32encode, List.mem_cons, List.not_mem_nil, or_false] at hc
      rcases hc with rfl | rfl <;> exact b32Val_b32Char_isSome _ (by omega)
  | [b0, b1], h => by
      have h0 : b0 < 256 := h b0 (by simp)
      have h1 : b1 < 256 := h b1 (by simp)
      intro c hc
      simp only [b32encode, List.mem_cons, List.not_mem_nil, or_false] at hc
      rcases hc with rfl | rfl | rfl | rfl <;> exact b32Val_b32Char_isSome _ (by omega)
  | [b0, b1, b2], h => by
      have h0 : b0 < 256 := h b0 (by simp)
      have h1 : b1 < 256 := h b1 (by simp)
      have h2 : b2 < 256 := h b2 (by simp)
      intro c hc
      simp only [b32encode, List.mem_cons, List.not_mem_nil, or_false] at hc
      rcases hc with rfl | rfl | rfl | rfl | rfl <;> exact b32Val_b32Char_isSome _ (by omega)
  | [b0, b1, b2, b3], h => by
      have h0 : b0 < 256 := h b0 (by simp)
      have h1 : b1 < 256 := h b1 (by simp)
      have h2 : b2 < 256 := h b2 (by simp)
      have h3 : b3 < 256 := h b3 (by simp)
      intro c hc
      simp only [b32encode, List.mem_cons, List.not_mem_nil, or_false] at hc
      rcases hc with rfl | rfl | rfl | rfl | rfl | rfl | rfl <;>
        exact b32Val_b32Char_isSome _ (by omega)
  | b0 :: b1 :: b2 :: b3 :: b4 :: rest, h => by
      have h0 : b0 < 256 := h b0 (by simp)
      have h1 : b1 < 256 := h b1 (by simp)
      have h2 : b2 < 256 := h b2 (by simp)
      have h3 : b3 < 256 := h b3 (by simp)
      have h4 : b4 < 256 := h b4 (by simp)
      have ih := b32encode_valid rest fun b hb => h b (by simp [hb])
      intro c hc
      have he : b32encode (b0 :: b1 :: b2 :: b3 :: b4 :: rest) =
          [b32Char (b0 / 8), b32Char (b0 % 8 * 4 + b1 / 64), b32Char (b1 % 64 / 2),
           b32Char (b1 % 2 * 16 + b2 / 16), b32Char (b2 % 16 * 2 + b3 / 128),
           b32Char (b3 % 128 / 4), b32Char (b3 % 4 * 8 + b4 / 32), b32Char (b4 % 32)] ++
            b32encode rest := rfl
      rw [he] at hc
      simp only [List.mem_append, List.mem_cons, List.not_mem_nil, or_false] at hc
      rcases hc with (rfl | rfl | rfl | rfl | rfl | rfl | rfl | rfl) | hc
      on_goal 9 => exact ih c hc
      all_goals exact b32Val_b32Char_isSome _ (by omega)

theorem b32encode_lenOk : ∀ (s : Bytes), b32LenOk (b32encode s).length = true
  | [] => by show b32LenOk 0 = true; decide
  | [_] => by show b32LenOk 2 = true; decide
  | [_, _] => by show b32LenOk 4 = true; decide
  | [_, _, _] => by show b32LenOk 5 = true; decide
  | [_, _, _, _] => by show b32LenOk 7 = true; decide
  | b0 :: b1 :: b2 :: b3 :: b4 :: rest => by
      have ih := b32encode_lenOk rest
      show b32LenOk (([_, _, _, _, _, _, _, _] : Bytes) ++ b32encode rest).length = true
      rw [List.length_append]
      unfold b32LenOk at ih ⊢
      simp only [List.length_cons, List.length_nil, decide_eq_true_eq] at ih ⊢
      omega

theorem b32decodeRaw_lt : ∀ (s : Bytes), ∀ b ∈ b32decodeRaw s, b < 256
  | [] => by simp [b32decodeRaw]
  | [_] => by simp [b32decodeRaw]
  | [c0, c1] => by
      intro b hb
      simp only [b32decodeRaw, List.mem_cons, List.not_mem_nil, or_false] at hb
      have := b32ValD_lt c0
      have := b32ValD_lt c1
      omega
  | [_, _, _] => by simp [b32decodeRaw]
  | [c0, c1, c2, c3] => by
      intro b hb
      simp only [b32decodeRaw, List.mem_cons, List.not_mem_nil, or_false] at hb
      have := b32ValD_lt c0
      have := b32ValD_lt c1
      have := b32ValD_lt c2
      have := b32ValD_lt c3
      omega
  | [c0, c1, c2, c3, c4] => by
      intro b hb
      simp only [b32decodeRaw, List.mem_cons, List.not_mem_nil, or_false] at hb
      have := b32ValD_lt c0
      have := b32ValD_lt c1
      have := b32ValD_lt c2
      have := b32ValD_lt c3
      have := b32ValD_lt c4
      omega
  | [_, _, _, _, _, _] => by simp [b32decodeRaw]
  | [c0, c1, c2, c3, c4, c5, c6] => by
      intro b hb
      simp only [b32decodeRaw, List.mem_cons, List.not_mem_nil, or_false] at hb
      have := b32ValD_lt c0
      have := b32ValD_lt c1
      have := b32ValD_lt c2
      have := b32ValD_lt c3
      have := b32ValD_lt c4
      have := b32ValD_lt c5
      have := b32ValD_lt c6
      omega
  | c0 :: c1 :: c2 :: c3 :: c4 :: c5 :: c6 :: c7 :: rest => by
      intro b hb
      have ih := b32decodeRaw_lt rest
      have he : b32decodeRaw (c0 :: c1 :: c2 :: c3 :: c4 :: c5 :: c6 :: c7 :: rest) =
          [b32ValD c0 * 8 + b32ValD c1 / 4,
           b32ValD c1 % 4 * 64 + b32ValD c2 * 2 + b32ValD c3 / 16,
           b32ValD c3 % 16 * 16 + b32ValD c4 / 2,
           b32ValD c4 % 2 * 128 + b32ValD c5 * 4 + b32ValD c6 / 8,
           b32ValD c6 % 8 * 32 + b32ValD c7] ++ b32decodeRaw rest := rfl
      rw [he] at hb
      simp only [List.mem_append, List.mem_cons, List.not_mem_nil, or_false] at hb
      have := b32ValD_lt c0
      have := b32ValD_lt c1
      have := b32ValD_lt c2
      have := b32ValD_lt c3
      have := b32ValD_lt c4
      have := b32ValD_lt c5
      have := b32ValD_lt c6
      have := b32ValD_lt c7
      rcases hb with (rfl | rfl | rfl | rfl | rfl) | hb
      on_goal 6 => exact ih b hb
      all_goals omega

theorem b32decodeRaw_ne_nil : ∀ (s : Bytes), s ≠ [] → b32LenOk s.length = true →
    b32decodeRaw s ≠ []
  | [], h, _ => absurd rfl h
  | [c], _, h2 => by exact absurd h2 (by show ¬ b32LenOk 1 = true; decide)
  | [_, _], _, _ => by simp [b32decodeRaw]
  | [_, _, _], _, h2 => by exact absurd h2 (by show ¬ b32LenOk 3 = true; decide)
  | [_, _, _, _], _, _ => by simp [b32decodeRaw]
  | [_, _, _, _, _], _, _ => by simp [b32decodeRaw]
  | [_, _, _, _, _, _], _, h2 => by exact absurd h2 (by show ¬ b32LenOk 6 = true; decide)
  | [_, _, _, _, _, _, _], _, _ => by simp [b32decodeRaw]
  | c0 :: c1 :: c2 :: c3 :: c4 :: c5 :: c6 :: c7 :: rest, _, _ => by
      have he : b32decodeRaw (c0 :: c1 :: c2 :: c3 :: c4 :: c5 :: c6 :: c7 :: rest) =
          [b32ValD c0 * 8 + b32ValD c1 / 4,
           b32ValD c1 % 4 * 64 + b32ValD c2 * 2 + b32ValD c3 / 16,
           b32ValD c3 % 16 * 16 + b32ValD c4 / 2,
           b32ValD c4 % 2 * 128 + b32ValD c5 * 4 + b32ValD c6 / 8,
           b32ValD c6 % 8 * 32 + b32ValD c7] ++ b32decodeRaw rest := rfl
      rw [he]
      simp

theorem b32encode_ne_nil : ∀ (s : Bytes), s ≠ [] → b32encode s ≠ []
  | [], h => absurd rfl h
  | [_], _ => by simp [b32encode]
  | [_, _], _ => by simp [b32encode]
  | [_, _, _], _ => by simp [b32encode]
  | [_, _, _, _], _ => by simp [b32encode]
  | _ :: _ :: _ :: _ :: _ :: _, _ => by simp [b32encode]

theorem b32encode_lt : ∀ (s : Bytes), ∀ c ∈ b32encode s, c < 256
  | [] => by simp [b32encode]
  | [b0] => by
      intro c hc
      simp only [b32encode, List.mem_cons, List.not_mem_nil, or_false] at hc
      rcases hc with rfl | rfl <;> exact b32Char_lt _
  | [b0, b1] => by
      intro c hc
      simp only [b32encode, List.mem_cons, List.not_mem_nil, or_false] at hc
      rcases hc with rfl | rfl | rfl | rfl <;> exact b32Char_lt _
  | [b0, b1, b2] => by
      intro c hc
      simp only [b32encode, List.mem_cons, List.not_mem_nil, or_false] at hc
      rcases hc with rfl | rfl | rfl | rfl | rfl <;> exact b32Char_lt _
  | [b0, b1, b2, b3] => by
      intro c hc
      simp only [b32encode, List.mem_cons, List.not_mem_nil, or_false] at hc
      rcases hc with rfl | rfl | rfl | rfl | rfl | rfl | rfl <;> exact b32Char_lt _
  | b0 :: b1 :: b2 :: b3 :: b4 :: rest => by
      intro c hc
      have ih := b32encode_lt rest
      have he : b32encode (b0 :: b1 :: b2 :: b3 :: b4 :: rest) =
          [b32Char (b0 / 8), b32Char (b0 % 8 * 4 + b1 / 64), b32Char (b1 % 64 / 2),
           b32Char (b1 % 2 * 16 + b2 / 16), b32Char (b2 % 16 * 2 + b3 / 128),
           b32Char (b3 % 128 / 4), b32Char (b3 % 4 * 8 + b4 / 32), b32Char (b4 % 32)] ++
            b32encode rest := rfl
      rw [he] at hc
      simp only [List.mem_append, List.mem_cons, List.not_mem_nil, or_false] at hc
      rcases hc with (rfl | rfl | rfl | rfl | rfl | rfl | rfl | rfl) | hc
      on_goal 9 => exact ih c hc
      all_goals exact b32Char_lt _

theorem b32decode_encode (s : Bytes) (h : ∀ b ∈ s, b < 256) :
    b32decode (b32encode s) = some s := by
  unfold b32decode
  rw [if_pos, b32decodeRaw_encode s h]
  rw [Bool.and_eq_true, List.all_eq_true]
  exact ⟨fun c hc => b32encode_valid s h c hc, b32encode_lenOk s⟩

theorem b32decode_some {s bs : Bytes} (h : b32decode s = some bs) :
    bs = b32decodeRaw s ∧ (s ≠ [] → bs ≠ []) ∧ ∀ b ∈ bs, b < 256 := by
  unfold b32decode at h
  split at h
  · rename_i hcond
    rw [Bool.and_eq_true] at hcond
    injection h with h
    subst h
    exact ⟨rfl, fun hne => b32decodeRaw_ne_nil s hne hcond.2, b32decodeRaw_lt s⟩
  · exact absurd h (by simp)

theorem natDigits_mem : ∀ (fuel n : Nat), ∀ b ∈ natDigits fuel n, 48 ≤ b ∧ b ≤ 57 := by
  intro fuel
  induction fuel with
  | zero => intro n b hb; simp [natDigits] at hb
  | succ fuel ih =>
      intro n b hb
      unfold natDigits at hb
      split at hb
      · simp at hb
        omega
      · simp only [List.mem_append, List.mem_cons, List.not_mem_nil, or_false] at hb
        rcases hb with hb | rfl
        · exact ih _ b hb
        · omega

theorem natDigits_ne_nil (fuel n : Nat) (h : 0 < fuel) : natDigits fuel n ≠ [] := by
  match fuel, h with
  | fuel + 1, _ =>
      unfold natDigits
      split <;> simp

theorem parseDigitsAux_append (xs ys : Bytes) : ∀ acc,
    parseDigitsAux (xs ++ ys) acc =
      (parseDigitsAux xs acc).bind fun a => parseDigitsAux ys a := by
  induction xs with
  | nil => intro acc; rfl
  | cons b rest ih =>
      intro acc
      show (if 48 ≤ b ∧ b ≤ 57 then parseDigitsAux (rest ++ ys) (acc * 10 + (b - 48)) else none) =
        (if 48 ≤ b ∧ b ≤ 57 then parseDigitsAux rest (acc * 10 + (b - 48)) else none).bind
          (fun a => parseDigitsAux ys a)
      split
      · exact ih _
      · rfl

theorem natDigits_parse : ∀ (fuel : Nat), ∀ n acc, n < 10 ^ fuel →
    parseDigitsAux (natDigits fuel n) acc =
      some (acc * 10 ^ (natDigits fuel n).length + n) := by
  intro fuel
  induction fuel with
  | zero =>
      intro n acc h
      have : n = 0 := by simpa using h
      subst this
      simp [natDigits, parseDigitsAux]
  | succ fuel ih =>
      intro n acc h
      unfold natDigits
      split
      · rename_i hn
        unfold parseDigitsAux parseDigitsAux
        rw [if_pos (by omega)]
        simp only [List.length_cons, List.length_nil, pow_one, Option.some.injEq]
        omega
      · rename_i hn
        rw [parseDigitsAux_append, ih (n / 10) acc (by omega)]
        show parseDigitsAux [48 + n % 10] _ = _
        unfold parseDigitsAux parseDigitsAux
        rw [if_pos (by omega)]
        simp only [List.length_append, List.length_cons, List.length_nil, Option.some.injEq]
        have hlen : acc * 10 ^ ((natDigits fuel (n / 10)).length + (0 + 1)) =
            acc * 10 ^ (natDigits fuel (n / 10)).length * 10 := by
          rw [Nat.zero_add, pow_succ, Nat.mul_assoc]
        rw [hlen]
        omega

theorem parseIntGo_formatInt (v : Int) (h1 : -(2 ^ 63) ≤ v) (h2 : v < 2 ^ 63) :
    parseIntGo (formatInt v) = some v := by
  unfold formatInt parseIntGo
  rcases em (v < 0) with hneg | hneg
  · rw [if_pos hneg]
    have hne : ¬ (45 :: natDigits 32 v.natAbs : Bytes) = [] := by simp
    rw [if_neg hne]
    have hhead : (45 :: natDigits 32 v.natAbs : Bytes).headD 0 = 45 := rfl
    rw [hhead, if_neg (by omega), if_pos rfl]
    have htail : (45 :: natDigits 32 v.natAbs : Bytes).tail = natDigits 32 v.natAbs := rfl
    rw [htail, if_neg (natDigits_ne_nil 32 v.natAbs (by omega))]
    rw [natDigits_parse 32 v.natAbs 0 (by omega)]
    simp only [Nat.zero_mul, Nat.zero_add]
    rw [if_pos (by omega)]
    congr 1
    omega
  · rw [if_neg hneg]
    rcases hd : natDigits 32 v.toNat with _ | ⟨x, xs⟩
    · exact absurd hd (natDigits_ne_nil 32 v.toNat (by omega))
    · have hx : 48 ≤ x ∧ x ≤ 57 := natDigits_mem 32 v.toNat x (by rw [hd]; simp)
      rw [← hd, if_neg (by rw [hd]; simp)]
      have hhead : (natDigits 32 v.toNat).headD 0 = x := by rw [hd]; rfl
      rw [hhead, if_neg (by omega), if_neg (by omega)]
      rw [natDigits_parse 32 v.toNat 0 (by omega)]
      simp only [Nat.zero_mul, Nat.zero_add]
      rw [if_pos (by omega)]
      congr 1
      omega

theorem parseIntGo_range {s : Bytes} {v : Int} (h : parseIntGo s = some v) :
    -(2 ^ 63) ≤ v ∧ v < 2 ^ 63 := by
  unfold parseIntGo at h
  by_cases h1 : s = []
  · rw [if_pos h1] at h
    exact absurd h (by simp)
  rw [if_neg h1] at h
  by_cases h2 : s.headD 0 = 43
  · rw [if_pos h2] at h
    by_cases h3 : s.tail = []
    · rw [if_pos h3] at h
      exact absurd h (by simp)
    rw [if_neg h3] at h
    rcases hp : parseDigitsAux s.tail 0 with _ | n
    · simp only [hp] at h
      exact absurd h (by simp)
    simp only [hp] at h
    by_cases hr : n ≤ 2 ^ 63 - 1
    · rw [if_pos hr] at h
      injection h with h
      subst h
      constructor <;> omega
    · rw [if_neg hr] at h
      exact absurd h (by simp)
  rw [if_neg h2] at h
  by_cases h4 : s.headD 0 = 45
  · rw [if_pos h4] at h
    by_cases h3 : s.tail = []
    · rw [if_pos h3] at h
      exact absurd h (by simp)
    rw [if_neg h3] at h
    rcases hp : parseDigitsAux s.tail 0 with _ | n
    · simp only [hp] at h
      exact absurd h (by simp)
    simp only [hp] at h
    by_cases hr : n ≤ 2 ^ 63
    · rw [if_pos hr] at h
      injection h with h
      subst h
      constructor <;> omega
    · rw [if_neg hr] at h
      exact absurd h (by simp)
  rw [if_neg h4] at h
  rcases hp : parseDigitsAux s 0 with _ | n
  · simp only [hp] at h
    exact absurd h (by simp)
  simp only [hp] at h
  by_cases hr : n ≤ 2 ^ 63 - 1
  · rw [if_pos hr] at h
    injection h with h
    subst h
    constructor <;> omega
  · rw [if_neg hr] at h
    exact absurd h (by simp)

theorem joinAmp_mem : ∀ (segs : List Bytes) (c : Nat), c ∈ joinAmp segs →
    c = 38 ∨ ∃ seg ∈ segs, c ∈ seg
  | [], c, hc => by simp [joinAmp] at hc
  | [x], c, hc => by
      right
      exact ⟨x, by simp, by simpa [joinAmp] using hc⟩
  | x :: y :: rest, c, hc => by
      have he : joinAmp (x :: y :: rest) = x ++ 38 :: joinAmp (y :: rest) := rfl
      rw [he] at hc
      simp only [List.mem_append, List.mem_cons] at hc
      rcases hc with hc | hc | hc
      · exact .inr ⟨x, by simp, hc⟩
      · exact .inl hc
      · rcases joinAmp_mem (y :: rest) c hc with h38 | ⟨seg, hseg, hcseg⟩
        · exact .inl h38
        · exact .inr ⟨seg, by simp only [List.mem_cons] at hseg ⊢; tauto, hcseg⟩

theorem encodeQuery_mem (pairs : List (Bytes × Bytes))
    (hb : ∀ p ∈ pairs, (∀ b ∈ p.1, b < 256) ∧ (∀ b ∈ p.2, b < 256)) :
    ∀ c ∈ encodeQuery pairs, 37 ≤ c ∧ c ≤ 126 ∧ c ≠ 35 ∧ c ≠ 63 := by
  intro c hc
  rcases joinAmp_mem _ c hc with rfl | ⟨seg, hseg, hcseg⟩
  · omega
  · simp only [List.mem_map] at hseg
    obtain ⟨p, hp, rfl⟩ := hseg
    simp only [List.mem_append, List.mem_cons] at hcseg
    rcases hcseg with h | h | h
    · have := queryEscape_mem p.1 (hb p hp).1 c h
      omega
    · omega
    · have := queryEscape_mem p.2 (hb p hp).2 c h
      omega

theorem formatInt_mem (v : Int) : ∀ b ∈ formatInt v, b < 256 := by
  intro b hb
  unfold formatInt at hb
  split at hb
  · simp only [List.mem_cons] at hb
    rcases hb with rfl | hb
    · omega
    · have := natDigits_mem 32 _ b hb
      omega
  · have := natDigits_mem 32 _ b hb
    omega

theorem urlParse_keyuri (ty label query : Bytes)
    (hty : ty = totpB ∨ ty = hotpB)
    (hlabel : ∀ b ∈ label, 32 ≤ b ∧ b ≠ 35 ∧ b ≠ 37 ∧ b ≠ 63 ∧ b ≠ 127)
    (hquery : ∀ c ∈ query, 37 ≤ c ∧ c ≤ 126 ∧ c ≠ 35 ∧ c ≠ 63) :
    urlParse (ascii "otpauth://" ++ ty ++ 47 :: label ++ 63 :: query) =
      some ⟨otpauthB, ty, 47 :: label, query⟩ := by
  have htyb : ∀ b ∈ ty, 97 ≤ b ∧ b ≤ 116 := by
    rcases hty with rfl | rfl <;> · intro b hb; simp [totpB, hotpB, ascii] at hb; omega
  have hmem : ∀ b ∈ ascii "otpauth://" ++ ty ++ 47 :: label ++ 63 :: query,
      32 ≤ b ∧ b ≠ 127 ∧ b ≠ 35 := by
    intro b hb
    simp only [List.mem_append, List.mem_cons] at hb
    rcases hb with ((hb | hb) | rfl | hb) | rfl | hb
    · simp [ascii] at hb
      omega
    · have := htyb b hb
      omega
    · omega
    · have := hlabel b hb
      omega
    · omega
    · have := hquery b hb
      omega
  unfold urlParse
  rw [if_neg ?hctl]
  case hctl =>
    simp only [List.any_eq_true, not_exists]
    rintro b ⟨hb, hp⟩
    have := hmem b hb
    simp at hp
    omega
  have hfrag : breakAt 35 (ascii "otpauth://" ++ ty ++ 47 :: label ++ 63 :: query) = none :=
    breakAt_none fun h35 => by have := hmem 35 h35; omega
  have hassoc : ascii "otpauth://" ++ ty ++ 47 :: label ++ 63 :: query =
      ascii "otpauth" ++ 58 :: (47 :: 47 :: (ty ++ 47 :: label ++ 63 :: query)) := by
    have : ascii "otpauth://" = ascii "otpauth" ++ [58, 47, 47] := by decide
    rw [this]
    simp
  have hscheme : breakAt 58 (ascii "otpauth://" ++ ty ++ 47 :: label ++ 63 :: query) =
      some (ascii "otpauth", 47 :: 47 :: (ty ++ 47 :: label ++ 63 :: query)) := by
    rw [hassoc]
    exact breakAt_append _ (by decide)
  simp only [hfrag, hscheme]
  rw [if_neg (by decide), if_pos (by decide)]
  have hquery63 : breakAt 63 (47 :: 47 :: (ty ++ 47 :: label ++ 63 :: query)) =
      some (47 :: 47 :: (ty ++ 47 :: label), query) := by
    have hassoc2 : (47 :: 47 :: (ty ++ 47 :: label ++ 63 :: query) : Bytes) =
        (47 :: 47 :: (ty ++ 47 :: label)) ++ 63 :: query := by simp
    rw [hassoc2]
    refine breakAt_append _ ?_
    intro h63
    rcases List.mem_cons.mp h63 with h | h63
    · omega
    rcases List.mem_cons.mp h63 with h | h63
    · omega
    rcases List.mem_append.mp h63 with h | h63
    · have := htyb 63 h
      omega
    rcases List.mem_cons.mp h63 with h | h63
    · omega
    · have := hlabel 63 h63
      omega
  simp only [hquery63]
  rw [if_pos ?htake]
  case htake =>
    constructor
    · rfl
    · rintro ⟨hsch, _⟩
      have : toLowerB (ascii "otpauth") ≠ [] := by decide
      exact this hsch
  have hdrop : (47 :: 47 :: (ty ++ 47 :: label) : Bytes).drop 2 = ty ++ 47 :: label := rfl
  rw [hdrop]
  have hhostbreak : breakAt 47 (ty ++ 47 :: label) = some (ty, label) := by
    refine breakAt_append _ ?_
    intro h47
    have := htyb 47 h47
    omega
  simp only [hhostbreak]
  have hpath : percentDecode false (47 :: label) = some (47 :: label) := by
    refine percentDecode_false_verbatim ?_
    intro h37
    simp only [List.mem_cons] at h37
    rcases h37 with h | h
    · omega
    · have := hlabel 37 h
      omega
  simp only [hpath]
  have hlower : toLowerB (ascii "otpauth") = otpauthB := by decide
  rw [hlower]

theorem queryGet_cons_ne {key k1 v1 : Bytes} {rest : List (Bytes × Bytes)}
    (h : (k1 == key) = false) : queryGet ((k1, v1) :: rest) key = queryGet rest key := by
  unfold queryGet
  rw [List.find?_cons]
  simp only [h]

theorem queryGet_cons_eq {key k1 v1 : Bytes} {rest : List (Bytes × Bytes)}
    (h : (k1 == key) = true) : queryGet ((k1, v1) :: rest) key = v1 := by
  unfold queryGet
  rw [List.find?_cons]
  simp only [h]

theorem queryHas_cons_ne {key k1 v1 : Bytes} {rest : List (Bytes × Bytes)}
    (h : (k1 == key) = false) : queryHas ((k1, v1) :: rest) key = queryHas rest key := by
  unfold queryHas
  rw [List.find?_cons]
  simp only [h]

theorem queryHas_cons_eq {key k1 v1 : Bytes} {rest : List (Bytes × Bytes)}
    (h : (k1 == key) = true) : queryHas ((k1, v1) :: rest) key = true := by
  unfold queryHas
  rw [List.find?_cons]
  simp only [h]
  rfl

theorem ParseURI_ok_inv {uri : Bytes} {k : Key} (h : ParseURI uri = some (.ok k)) :
    ∃ parsed : URL, urlParse uri = some parsed ∧ parsed.scheme = otpauthB ∧
      (parsed.host = totpB ∨ parsed.host = hotpB) ∧ parsed.path ≠ [] ∧
      k.Type' = parsed.host ∧ k.Label = parsed.path.drop 1 ∧
      queryGet (parseQuery parsed.rawQuery) secretB ≠ [] ∧
      b32decode (queryGet (parseQuery parsed.rawQuery) secretB) = some k.Secret ∧
      k.Issuer = queryGet (parseQuery parsed.rawQuery) issuerB ∧
      (k.Algorithm = 3 ∨ k.Algorithm = 5 ∨ k.Algorithm = 7) ∧
      (parsed.host = hotpB →
        k.Period = 0 ∧ -(2 ^ 63 : Int) ≤ k.Counter ∧ k.Counter < 2 ^ 63) ∧
      (parsed.host = totpB →
        k.Counter = 0 ∧ -(2 ^ 63 : Int) ≤ k.Period ∧ k.Period < 2 ^ 63) := by
  unfold ParseURI at h
  rcases hu : urlParse uri with _ | parsed
  · simp only [hu] at h
    exact absurd h (by simp)
  simp only [hu] at h
  by_cases h1 : parsed.scheme ≠ otpauthB
  · rw [if_pos h1] at h
    exact absurd h (by simp)
  rw [if_neg h1] at h
  push_neg at h1
  by_cases h2 : parsed.host ≠ totpB ∧ parsed.host ≠ hotpB
  · rw [if_pos h2] at h
    exact absurd h (by simp)
  rw [if_neg h2] at h
  have hhost : parsed.host = totpB ∨ parsed.host = hotpB := by
    rcases not_and_or.mp h2 with hx | hx
    · exact .inl (not_not.mp hx)
    · exact .inr (not_not.mp hx)
  by_cases h3 : parsed.path = []
  · rw [if_pos h3] at h
    exact absurd h (by simp)
  rw [if_neg h3] at h
  by_cases h4 : ¬ queryHas (parseQuery parsed.rawQuery) secretB = true ∨
      queryGet (parseQuery parsed.rawQuery) secretB = []
  · rw [if_pos h4] at h
    exact absurd h (by simp)
  rw [if_neg h4] at h
  push_neg at h4
  rcases hsec : b32decode (queryGet (parseQuery parsed.rawQuery) secretB) with _ | secret
  · simp only [hsec] at h
    exact absurd h (by simp)
  simp only [hsec] at h
  rcases halg : (if queryHas (parseQuery parsed.rawQuery) algorithmB then
      algFromString (queryGet (parseQuery parsed.rawQuery) algorithmB) else some 3) with _ | alg
  · simp only [halg] at h
    exact absurd h (by simp)
  simp only [halg] at h
  have halg3 : alg = 3 ∨ alg = 5 ∨ alg = 7 := by
    rcases em (queryHas (parseQuery parsed.rawQuery) algorithmB = true) with hq | hq
    · rw [if_pos hq] at halg
      unfold algFromString at halg
      split_ifs at halg <;> simp at halg <;> omega
    · rw [if_neg hq] at halg
      injection halg with halg
      omega
  rcases hdig : (if queryHas (parseQuery parsed.rawQuery) digitsB then
      parseUintGo (queryGet (parseQuery parsed.rawQuery) digitsB) else some 6) with _ | digits
  · simp only [hdig] at h
    exact absurd h (by simp)
  simp only [hdig] at h
  by_cases hh : parsed.host = hotpB
  · rw [if_pos hh] at h
    by_cases hc : ¬ queryHas (parseQuery parsed.rawQuery) counterB = true
    · rw [if_pos hc] at h
      exact absurd h (by simp)
    rw [if_neg hc] at h
    rcases hcnt : parseIntGo (queryGet (parseQuery parsed.rawQuery) counterB) with _ | counter
    · simp only [hcnt] at h
      exact absurd h (by simp)
    simp only [hcnt] at h
    simp only [Option.some.injEq, Except.ok.injEq] at h
    subst h
    have hrange := parseIntGo_range hcnt
    refine ⟨parsed, rfl, h1, hhost, h3, rfl, rfl, h4.2, hsec, rfl, halg3,
      fun _ => ⟨rfl, hrange.1, hrange.2⟩, fun ht => ?_⟩
    rw [ht] at hh
    exact absurd hh (by decide)
  · rw [if_neg hh] at h
    rcases hper : (if queryHas (parseQuery parsed.rawQuery) periodB then
        parseIntGo (queryGet (parseQuery parsed.rawQuery) periodB) else some 30) with _ | period
    · simp only [hper] at h
      exact absurd h (by simp)
    simp only [hper] at h
    simp only [Option.some.injEq, Except.ok.injEq] at h
    subst h
    have hrange : -(2 ^ 63 : Int) ≤ period ∧ period < 2 ^ 63 := by
      rcases em (queryHas (parseQuery parsed.rawQuery) periodB = true) with hq | hq
      · rw [if_pos hq] at hper
        exact parseIntGo_range hper
      · rw [if_neg hq] at hper
        injection hper with hper
        constructor <;> omega
    exact ⟨parsed, rfl, h1, hhost, h3, rfl, rfl, h4.2, hsec, rfl, halg3,
      fun hth => absurd hth hh, fun _ => ⟨rfl, hrange.1, hrange.2⟩⟩

theorem HOTP_isSome (key : Bytes) (c : Int) (opts : HOTPOptions)
    (h : opts.Digits ≤ 63) : (HOTP key c opts).isSome := by
  obtain ⟨v, hvle, hdt, hh⟩ := HOTP_char key c opts
  rw [hh, if_neg (Nat.pos_iff_ne_zero.mp (pow10_pos _ (by split <;> omega)))]
  rfl

/-! ## Claim theorems -/

/-- C1: for the RFC 4226 secret `"12345678901234567890"` and default options,
`HOTP(secret, c, {})` equals the published test-vector code for every counter
`c` in `0..9`; in particular counters 0 and 1 give 755224 and 287082. -/
theorem hotp_rfc4226_vectors :
    ((List.range 10).map fun c => HOTP hotpSecret (c : Int) {}) = hotpRfcCodes.map some ∧
    HOTP hotpSecret 0 {} = some 755224 ∧
    HOTP hotpSecret 1 {} = some 287082 := by
  refine ⟨by decide, by decide, by decide⟩

/-- C2: every code returned by `HOTP` is strictly below `10^digits` for the
resolved digit count, and below 1,000,000 when `Digits = 0` (default 6). -/
theorem hotp_code_lt_pow10 (key : Bytes) (c : Int) (opts : HOTPOptions) (code : Nat)
    (h : HOTP key c opts = some code) :
    code < 10 ^ (if opts.Digits = 0 then 6 else opts.Digits) ∧
      (opts.Digits = 0 → code < 1000000) := by
  obtain ⟨v, hvle, hdt, hh⟩ := HOTP_char key c opts
  rw [hh] at h
  rcases em (pow10 (if opts.Digits = 0 then 6 else opts.Digits) = 0) with h0 | h0
  · rw [if_pos h0] at h
    exact absurd h (by simp)
  · rw [if_neg h0] at h
    have hcode : code = v % pow10 (if opts.Digits = 0 then 6 else opts.Digits) :=
      (Option.some.injEq _ _ ▸ h).symm
    have hlt : code < pow10 (if opts.Digits = 0 then 6 else opts.Digits) :=
      hcode ▸ Nat.mod_lt _ (Nat.pos_of_ne_zero h0)
    have hle : pow10 (if opts.Digits = 0 then 6 else opts.Digits) ≤
        10 ^ (if opts.Digits = 0 then 6 else opts.Digits) := by
      rw [pow10_eq]
      exact Nat.mod_le _ _
    refine ⟨by omega, fun hz => ?_⟩
    rw [hz] at hlt
    have : pow10 (if (0 : Nat) = 0 then 6 else (0 : Nat)) = 1000000 := by decide
    simp only [if_pos rfl] at hlt this
    omega

/-- Witness for C2 at the RFC vector for counter 0. -/
theorem hotp_code_lt_pow10_witness :
    HOTP hotpSecret 0 {} = some 755224 ∧
      (755224 < 10 ^ (if ({} : HOTPOptions).Digits = 0 then 6 else ({} : HOTPOptions).Digits) ∧
        (({} : HOTPOptions).Digits = 0 → 755224 < 1000000)) :=
  ⟨by decide, hotp_code_lt_pow10 hotpSecret 0 {} 755224 (by decide)⟩

/-- C3: for a positive period, `timePeriodCount` is the toward-zero quotient
of `t - t0` by `x` when `t ≥ t0` (here: floor division of the nonnegative
numerator), and that toward-zero quotient minus 1 when `t < t0` (here: minus
the floor quotient of the negated numerator, minus 1); in particular
`timePeriodCount (-1) 0 30 = -1`. -/
theorem timePeriodCount_tdiv_spec (t t0 x : Int) (hx : 0 < x) :
    (timePeriodCount t t0 x =
      if t < t0 then -((t0 - t) / x) - 1 else (t - t0) / x) ∧
    timePeriodCount (-1) 0 30 = -1 := by
  refine ⟨?_, by decide⟩
  unfold timePeriodCount
  rcases em (t < t0) with hlt | hlt
  · rw [if_pos hlt, if_pos hlt]
    have h1 : (t - t0).tdiv x = -((t0 - t).tdiv x) := by
      have h := Int.neg_tdiv (t0 - t) x
      rw [show -(t0 - t) = t - t0 by ring] at h
      exact h
    rw [h1, Int.tdiv_eq_ediv (by omega) (by omega)]
  · rw [if_neg hlt, if_neg hlt, Int.tdiv_eq_ediv (by omega) (by omega)]

/-- Witness for C3 at `t = -1`, `t0 = 0`, `x = 30`. -/
theorem timePeriodCount_tdiv_spec_witness :
    (0 : Int) < 30 ∧
      ((timePeriodCount (-1) 0 30 =
        if (-1 : Int) < 0 then -(((0 : Int) - (-1)) / 30) - 1 else ((-1 : Int) - 0) / 30) ∧
       timePeriodCount (-1) 0 30 = -1) :=
  ⟨by decide, timePeriodCount_tdiv_spec (-1) 0 30 (by decide)⟩

/-- C4 counterexample: shifting by one period across the reference point at an
exact multiple breaks the claimed identity (`t = -30`, `ref = 0`,
`period = 30`, `s = 1`: the left side is 0, the right side is -1). -/
theorem timePeriodCount_shift_cex :
    ¬ (timePeriodCount (-30 + 1 * 30) 0 30 = timePeriodCount (-30) 0 30 + 1) := by
  decide

/-- C4 amended: the shift identity holds for every positive period whenever
`t - ref` and `t + s·period - ref` are on the same side of zero (both
nonnegative or both negative). -/
theorem timePeriodCount_shift_amended (t ref p s : Int) (hp : 0 < p)
    (h : (ref ≤ t ∧ ref ≤ t + s * p) ∨ (t < ref ∧ t + s * p < ref)) :
    timePeriodCount (t + s * p) ref p = timePeriodCount t ref p + s :=
  timePeriodCount_shift t ref p s hp h

/-- Witness for C4 amended at `t = 59`, `ref = 0`, `p = 30`, `s = 2`. -/
theorem timePeriodCount_shift_amended_witness :
    (0 : Int) < 30 ∧
      (((0 : Int) ≤ 59 ∧ (0 : Int) ≤ 59 + 2 * 30) ∨ ((59 : Int) < 0 ∧ (59 : Int) + 2 * 30 < 0)) ∧
      timePeriodCount (59 + 2 * 30) 0 30 = timePeriodCount 59 0 30 + 2 :=
  ⟨by decide, by decide,
    timePeriodCount_shift_amended 59 0 30 2 (by decide) (by decide)⟩

/-- C5 counterexample: with the default options, `TOTP` at time
`-30 + 1·30 = 0` with `Step = 0` (code 755224) differs from `TOTP` at time
`-30` with `Step = 1` (code 94451), because the shift crosses the reference
point at an exact multiple of the period. -/
theorem totp_step_equiv_cex :
    ¬ (TOTP hotpSecret (-30 + 1 * 30) { Step := 0 } = TOTP hotpSecret (-30) { Step := 1 }) := by
  decide

/-- C5 amended: for `s ∈ {-2,-1,0,1,2}`, a nonnegative configured period, and
`t - TimeReference` and `t + s·period - TimeReference` on the same side of
zero, `TOTP` at `t + s·period` with `Step = 0` equals `TOTP` at `t` with
`Step = s`, all other options equal. -/
theorem totp_step_equiv_amended (key : Bytes) (t : Int) (opts : TOTPOptions) (s : Int)
    (_hs : s ∈ ([-2, -1, 0, 1, 2] : List Int))
    (hper : 0 ≤ opts.Period)
    (hside : (opts.TimeReference ≤ t ∧
        opts.TimeReference ≤ t + s * (if opts.Period = 0 then 30 else opts.Period)) ∨
      (t < opts.TimeReference ∧
        t + s * (if opts.Period = 0 then 30 else opts.Period) < opts.TimeReference)) :
    TOTP key (t + s * (if opts.Period = 0 then 30 else opts.Period)) { opts with Step := 0 } =
      TOTP key t { opts with Step := s } := by
  obtain ⟨ho, tr, per, st⟩ := opts
  simp only at hper hside
  unfold TOTP
  simp only
  have hp : (0 : Int) < if per = 0 then 30 else per := by split <;> omega
  rw [timePeriodCount_shift t tr _ s hp hside]
  ring_nf

/-- Witness for C5 amended at the RFC secret, `t = 59`, `s = 1`, default options. -/
theorem totp_step_equiv_amended_witness :
    (1 : Int) ∈ ([-2, -1, 0, 1, 2] : List Int) ∧
      (0 : Int) ≤ ({} : TOTPOptions).Period ∧
      ((({} : TOTPOptions).TimeReference ≤ 59 ∧
          ({} : TOTPOptions).TimeReference ≤
            59 + 1 * (if ({} : TOTPOptions).Period = 0 then 30 else ({} : TOTPOptions).Period)) ∨
        ((59 : Int) < ({} : TOTPOptions).TimeReference ∧
          59 + 1 * (if ({} : TOTPOptions).Period = 0 then 30 else ({} : TOTPOptions).Period) <
            ({} : TOTPOptions).TimeReference)) ∧
      TOTP hotpSecret (59 + 1 * (if ({} : TOTPOptions).Period = 0 then 30
          else ({} : TOTPOptions).Period)) { ({} : TOTPOptions) with Step := 0 } =
        TOTP hotpSecret 59 { ({} : TOTPOptions) with Step := 1 } :=
  ⟨by decide, by decide, by decide,
    totp_step_equiv_amended hotpSecret 59 {} 1 (by decide) (by decide) (by decide)⟩

/-- C9 counterexample: with `Digits = 64`, `pow10` wraps to 0 in 64-bit `uint`
arithmetic and `HOTP` hits a division-by-zero panic instead of returning a
code. -/
theorem hotp_digits64_cex : HOTP hotpSecret 0 { Digits := 64 } = none := by
  decide

/-- C9 amended: for every secret (including empty), every counter (including
negative) and every digit count up to 63, `HOTP` and `TOTP` always return a
code; for digit counts of 10 and above (up to 63) the 31-bit truncated value
is returned unchanged. For digit counts of 64 and above, `pow10` wraps to 0
and the modulus operation panics. -/
theorem hotp_totp_total_amended (key : Bytes) (c : Int) (opts : HOTPOptions)
    (t : Int) (topts : TOTPOptions)
    (h1 : opts.Digits ≤ 63) (h2 : topts.hotp.Digits ≤ 63) :
    (HOTP key c opts).isSome ∧ (TOTP key t topts).isSome ∧
      (10 ≤ opts.Digits →
        HOTP key c opts = dynamicTruncation (hmacShaN (opts.Algorithm.getD .sha1) key c)) := by
  refine ⟨HOTP_isSome key c opts h1, ?_, fun h10 => ?_⟩
  · unfold TOTP
    exact HOTP_isSome key _ topts.hotp h2
  · obtain ⟨v, hvle, hdt, hh⟩ := HOTP_char key c opts
    have hd : (if opts.Digits = 0 then 6 else opts.Digits) = opts.Digits := by
      rw [if_neg (by omega)]
    rw [hh, hd, if_neg (Nat.pos_iff_ne_zero.mp (pow10_pos _ (by omega))), hdt,
      Nat.mod_eq_of_lt (lt_of_le_of_lt hvle (pow10_big _ (by omega) h10))]

/-- Witness for C9 amended with an empty secret and 12 digits. -/
theorem hotp_totp_total_amended_witness :
    ({ Digits := 12 } : HOTPOptions).Digits ≤ 63 ∧ ({} : TOTPOptions).hotp.Digits ≤ 63 ∧
      ((HOTP [] 0 { Digits := 12 }).isSome ∧ (TOTP [] 0 {}).isSome ∧
        (10 ≤ ({ Digits := 12 } : HOTPOptions).Digits →
          HOTP [] 0 { Digits := 12 } =
            dynamicTruncation (hmacShaN (({ Digits := 12 } : HOTPOptions).Algorithm.getD .sha1)
              [] 0))) :=
  ⟨by decide, by decide,
    hotp_totp_total_amended [] 0 { Digits := 12 } 0 {} (by decide) (by decide)⟩

/-- C6 counterexample: the key parsed from `otpauth://totp/a%3Fx?secret=ME`
has default-compatible fields (digits 6, period 30 re-emitted), yet
serializing it interpolates the label `a?x` without percent-encoding, and
re-parsing the produced URI yields a different key (label truncated to `a`
at the stray `?`). -/
theorem parse_uri_roundtrip_cex :
    ParseURI (ascii "otpauth://totp/a%3Fx?secret=ME") = some (.ok cexKey) ∧
    cexKey.Digits = 6 ∧ cexKey.Period = 30 ∧
    KeyURI cexKey = .ok (ascii "otpauth://totp/a?x?algorithm=SHA1&issuer=&period=30&secret=ME") ∧
    ParseURI (ascii "otpauth://totp/a?x?algorithm=SHA1&issuer=&period=30&secret=ME") =
      some (.ok cexKey2) ∧
    cexKey2 ≠ cexKey := by decide

/-- C7: when the parsed scheme is not `otpauth` and the query has no `secret`
parameter, `ParseURI` reports the invalid-scheme error — the scheme check
comes first in the fixed validation order. -/
theorem parse_scheme_checked_first (uri : Bytes) (parsed : URL)
    (hu : urlParse uri = some parsed) (hs : parsed.scheme ≠ otpauthB)
    (_hns : ¬ queryHas (parseQuery parsed.rawQuery) secretB = true) :
    ParseURI uri = some (.error .invalidScheme) := by
  unfold ParseURI
  simp only [hu]
  rw [if_pos hs]

/-- Witness for C7 at `example://totp/x` (bad scheme, no secret). -/
theorem parse_scheme_checked_first_witness :
    urlParse (ascii "example://totp/x") =
      some ⟨ascii "example", totpB, ascii "/x", []⟩ ∧
    (⟨ascii "example", totpB, ascii "/x", []⟩ : URL).scheme ≠ otpauthB ∧
    ¬ queryHas (parseQuery (⟨ascii "example", totpB, ascii "/x", []⟩ : URL).rawQuery)
        secretB = true ∧
    ParseURI (ascii "example://totp/x") = some (.error .invalidScheme) :=
  ⟨by decide, by decide, by decide,
    parse_scheme_checked_first _ ⟨ascii "example", totpB, ascii "/x", []⟩
      (by decide) (by decide) (by decide)⟩

/-- C8: `Key.URI` fails with the invalid-type error exactly when the type is
neither `hotp` nor `totp`; otherwise with the missing-secret error exactly
when the secret is empty; otherwise with the invalid-algorithm error exactly
when the algorithm is not SHA-1/SHA-256/SHA-512/zero; and succeeds otherwise.
The zero algorithm serializes as `SHA1`. -/
theorem keyURI_error_conditions (k : Key) :
    (KeyURI k = .error .invalidType ↔ (k.Type' ≠ hotpB ∧ k.Type' ≠ totpB)) ∧
    (KeyURI k = .error .missingSecret ↔
      ((k.Type' = hotpB ∨ k.Type' = totpB) ∧ k.Secret = [])) ∧
    (KeyURI k = .error .invalidAlgorithm ↔
      ((k.Type' = hotpB ∨ k.Type' = totpB) ∧ k.Secret ≠ [] ∧
        ¬(k.Algorithm = 0 ∨ k.Algorithm = 3 ∨ k.Algorithm = 5 ∨ k.Algorithm = 7))) ∧
    ((∃ u, KeyURI k = .ok u) ↔
      ((k.Type' = hotpB ∨ k.Type' = totpB) ∧ k.Secret ≠ [] ∧
        (k.Algorithm = 0 ∨ k.Algorithm = 3 ∨ k.Algorithm = 5 ∨ k.Algorithm = 7))) ∧
    algToString 0 = some (ascii "SHA1") := by
  have main : (KeyURI k = .error .invalidType ↔ (k.Type' ≠ hotpB ∧ k.Type' ≠ totpB)) ∧
      (KeyURI k = .error .missingSecret ↔
        ((k.Type' = hotpB ∨ k.Type' = totpB) ∧ k.Secret = [])) ∧
      (KeyURI k = .error .invalidAlgorithm ↔
        ((k.Type' = hotpB ∨ k.Type' = totpB) ∧ k.Secret ≠ [] ∧
          ¬(k.Algorithm = 0 ∨ k.Algorithm = 3 ∨ k.Algorithm = 5 ∨ k.Algorithm = 7))) ∧
      ((∃ u, KeyURI k = .ok u) ↔
        ((k.Type' = hotpB ∨ k.Type' = totpB) ∧ k.Secret ≠ [] ∧
          (k.Algorithm = 0 ∨ k.Algorithm = 3 ∨ k.Algorithm = 5 ∨ k.Algorithm = 7))) := by
    unfold KeyURI
    by_cases ht : k.Type' ≠ hotpB ∧ k.Type' ≠ totpB
    · rw [if_pos ht]
      have hto : ¬ (k.Type' = hotpB ∨ k.Type' = totpB) := by tauto
      exact ⟨⟨fun _ => ht, fun _ => rfl⟩,
        ⟨fun he => absurd he (by simp), fun hr => absurd hr.1 hto⟩,
        ⟨fun he => absurd he (by simp), fun hr => absurd hr.1 hto⟩,
        ⟨fun he => Except.noConfusion he.choose_spec, fun hr => absurd hr.1 hto⟩⟩
    · rw [if_neg ht]
      have hty : k.Type' = hotpB ∨ k.Type' = totpB := by tauto
      by_cases hs : k.Secret.length = 0
      · rw [if_pos hs]
        have hse : k.Secret = [] := List.length_eq_zero.mp hs
        exact ⟨⟨fun he => absurd he (by simp), fun hr => absurd hr ht⟩,
          ⟨fun _ => ⟨hty, hse⟩, fun _ => rfl⟩,
          ⟨fun he => absurd he (by simp), fun hr => absurd hse hr.2.1⟩,
          ⟨fun he => Except.noConfusion he.choose_spec, fun hr => absurd hse hr.2.1⟩⟩
      · rw [if_neg hs]
        have hsne : k.Secret ≠ [] := fun he => hs (by rw [he]; rfl)
        by_cases ha : k.Algorithm = 0 ∨ k.Algorithm = 3 ∨ k.Algorithm = 5 ∨ k.Algorithm = 7
        · have hsome : ∃ str, algToString k.Algorithm = some str := by
            unfold algToString
            rcases ha with h | h | h | h <;> rw [h] <;> simp
          obtain ⟨str, hstr⟩ := hsome
          rw [hstr]
          exact ⟨⟨fun he => Except.noConfusion he, fun hr => absurd hr ht⟩,
            ⟨fun he => Except.noConfusion he, fun hr => absurd hr.2 hsne⟩,
            ⟨fun he => Except.noConfusion he, fun hr => absurd ha hr.2.2⟩,
            ⟨fun _ => ⟨hty, hsne, ha⟩, fun _ => ⟨_, rfl⟩⟩⟩
        · have hnone : algToString k.Algorithm = none := by
            unfold algToString
            split_ifs with h1 h2 h3
            · exact absurd (by tauto) ha
            · exact absurd (by tauto) ha
            · exact absurd (by tauto) ha
            · rfl
          rw [hnone]
          exact ⟨⟨fun he => absurd he (by simp), fun hr => absurd hr ht⟩,
            ⟨fun he => absurd he (by simp), fun hr => absurd hr.2 hsne⟩,
            ⟨fun _ => ⟨hty, hsne, ha⟩, fun _ => rfl⟩,
            ⟨fun he => Except.noConfusion he.choose_spec, fun hr => absurd hr.2.2 ha⟩⟩
  exact ⟨main.1, main.2.1, main.2.2.1, main.2.2.2, by decide⟩

/-- C6 amended: round-trip holds for every successfully parsed key whose
digit count is the decode default 6 (the serializer never re-emits digits),
whose period is nonzero for totp keys (a zero period would not be re-emitted
and would re-decode as 30), whose issuer is a byte string, and whose label
contains no control bytes and none of `#`, `%`, `?` (the serializer
interpolates the label without percent-encoding). -/
theorem parse_uri_roundtrip_amended (uri : Bytes) (k : Key)
    (hparse : ParseURI uri = some (.ok k))
    (hdigits : k.Digits = 6)
    (hperiod : k.Type' = totpB → k.Period ≠ 0)
    (hissuer : ∀ b ∈ k.Issuer, b < 256)
    (hlabel : ∀ b ∈ k.Label, 32 ≤ b ∧ b ≠ 35 ∧ b ≠ 37 ∧ b ≠ 63 ∧ b ≠ 127) :
    ∃ u, KeyURI k = .ok u ∧ ParseURI u = some (.ok k) := by
  obtain ⟨parsed, hup0, hsch, hhost, hpne, hty, hlab, hrawne, hdec, hissq, halg, hhotp, htotp⟩ :=
    ParseURI_ok_inv hparse
  obtain ⟨hsecraw, hsecne', hseclt⟩ := b32decode_some hdec
  have hsecne : k.Secret ≠ [] := hsecne' hrawne
  have halgS : ∃ algStr, algToString k.Algorithm = some algStr ∧
      algFromString algStr = some k.Algorithm ∧ (∀ b ∈ algStr, b < 256) := by
    rcases halg with h | h | h
    · exact ⟨ascii "SHA1", by rw [h]; decide, by rw [h]; decide, by decide⟩
    · exact ⟨ascii "SHA256", by rw [h]; decide, by rw [h]; decide, by decide⟩
    · exact ⟨ascii "SHA512", by rw [h]; decide, by rw [h]; decide, by decide⟩
  obtain ⟨algStr, hA2S, hS2A, halgb⟩ := halgS
  have htyOr : k.Type' = totpB ∨ k.Type' = hotpB := by rw [hty]; exact hhost
  obtain ⟨kty, klab, ksec, kiss, kalg, kdig, kcnt, kper⟩ := k
  simp only [] at hdigits hperiod hissuer hlabel hty hlab hdec
  simp only [] at hsecraw hseclt hsecne hA2S hS2A halg htyOr
  rcases htyOr with htt | hth
  · subst htt
    subst hdigits
    have hperne : kper ≠ 0 := hperiod rfl
    obtain ⟨hcnt0, hperlo, hperhi⟩ := htotp (hty.symm)
    simp only [] at hcnt0 hperlo hperhi
    subst hcnt0
    have hKU : KeyURI ⟨totpB, klab, ksec, kiss, kalg, 6, 0, kper⟩ =
        .ok (ascii "otpauth://" ++ totpB ++ 47 :: klab ++ 63 ::
          encodeQuery [(algorithmB, algStr), (issuerB, kiss),
            (periodB, formatInt kper), (secretB, b32encode ksec)]) := by
      unfold KeyURI
      rw [if_neg (by rintro ⟨_, h2⟩; exact h2 rfl)]
      rw [if_neg (by simpa using hsecne)]
      simp only [] at hA2S ⊢
      rw [hA2S]
      rw [if_neg (by decide), if_pos (by right; decide), if_pos ⟨by decide, hperne⟩]
      simp
    have hpairs_b : ∀ p ∈ [(algorithmB, algStr), (issuerB, kiss),
        (periodB, formatInt kper), (secretB, b32encode ksec)],
        (∀ b ∈ p.1, b < 256) ∧ (∀ b ∈ p.2, b < 256) := by
      intro p hp
      simp only [List.mem_cons, List.not_mem_nil, or_false] at hp
      rcases hp with rfl | rfl | rfl | rfl
      · exact ⟨by show ∀ b ∈ algorithmB, b < 256; decide, halgb⟩
      · exact ⟨by show ∀ b ∈ issuerB, b < 256; decide, hissuer⟩
      · exact ⟨by show ∀ b ∈ periodB, b < 256; decide, formatInt_mem _⟩
      · exact ⟨by show ∀ b ∈ secretB, b < 256; decide, b32encode_lt _⟩
    refine ⟨_, hKU, ?_⟩
    unfold ParseURI
    simp only [urlParse_keyuri totpB klab _ (.inl rfl) hlabel (encodeQuery_mem _ hpairs_b)]
    rw [if_neg (fun hne => hne rfl), if_neg (by rintro ⟨h1, _⟩; exact h1 rfl),
      if_neg (by simp)]
    rw [parseQuery_encodeQuery _ (by simp) hpairs_b]
    have hget_sec : queryGet [(algorithmB, algStr), (issuerB, kiss),
        (periodB, formatInt kper), (secretB, b32encode ksec)] secretB = b32encode ksec := by
      rw [queryGet_cons_ne (by decide), queryGet_cons_ne (by decide),
        queryGet_cons_ne (by decide), queryGet_cons_eq (by decide)]
    have hhas_sec : queryHas [(algorithmB, algStr), (issuerB, kiss),
        (periodB, formatInt kper), (secretB, b32encode ksec)] secretB = true := by
      rw [queryHas_cons_ne (by decide), queryHas_cons_ne (by decide),
        queryHas_cons_ne (by decide), queryHas_cons_eq (by decide)]
    have hget_alg : queryGet [(algorithmB, algStr), (issuerB, kiss),
        (periodB, formatInt kper), (secretB, b32encode ksec)] algorithmB = algStr :=
      queryGet_cons_eq (by decide)
    have hhas_alg : queryHas [(algorithmB, algStr), (issuerB, kiss),
        (periodB, formatInt kper), (secretB, b32encode ksec)] algorithmB = true :=
      queryHas_cons_eq (by decide)
    have hhas_dig : queryHas [(algorithmB, algStr), (issuerB, kiss),
        (periodB, formatInt kper), (secretB, b32encode ksec)] digitsB = false := by
      rw [queryHas_cons_ne (by decide), queryHas_cons_ne (by decide),
        queryHas_cons_ne (by decide), queryHas_cons_ne (by decide)]
      rfl
    have hget_iss : queryGet [(algorithmB, algStr), (issuerB, kiss),
        (periodB, formatInt kper), (secretB, b32encode ksec)] issuerB = kiss := by
      rw [queryGet_cons_ne (by decide), queryGet_cons_eq (by decide)]
    have hget_per : queryGet [(algorithmB, algStr), (issuerB, kiss),
        (periodB, formatInt kper), (secretB, b32encode ksec)] periodB = formatInt kper := by
      rw [queryGet_cons_ne (by decide), queryGet_cons_ne (by decide),
        queryGet_cons_eq (by decide)]
    have hhas_per : queryHas [(algorithmB, algStr), (issuerB, kiss),
        (periodB, formatInt kper), (secretB, b32encode ksec)] periodB = true := by
      rw [queryHas_cons_ne (by decide), queryHas_cons_ne (by decide),
        queryHas_cons_eq (by decide)]
    rw [if_neg ?hsecok]
    case hsecok =>
      rintro (h | h)
      · rw [hhas_sec] at h
        exact h rfl
      · rw [hget_sec] at h
        exact b32encode_ne_nil _ hsecne h
    rw [hget_sec, b32decode_encode _ hseclt]
    rw [if_pos hhas_alg, hget_alg, hS2A]
    have hifdig : ¬ (queryHas [(algorithmB, algStr), (issuerB, kiss),
        (periodB, formatInt kper), (secretB, b32encode ksec)] digitsB = true) := by
      rw [hhas_dig]
      exact fun h => Bool.noConfusion h
    rw [if_neg hifdig]
    simp only []
    have hifhh : ¬ (totpB = hotpB) := by decide
    rw [if_neg hifhh]
    rw [if_pos hhas_per, hget_per, parseIntGo_formatInt kper hperlo hperhi]
    rw [hget_iss]
    rfl
  · subst hth
    subst hdigits
    obtain ⟨hper0, hcntlo, hcnthi⟩ := hhotp (hty.symm)
    simp only [] at hper0 hcntlo hcnthi
    subst hper0
    have hKU : KeyURI ⟨hotpB, klab, ksec, kiss, kalg, 6, kcnt, 0⟩ =
        .ok (ascii "otpauth://" ++ hotpB ++ 47 :: klab ++ 63 ::
          encodeQuery [(algorithmB, algStr), (counterB, formatInt kcnt),
            (issuerB, kiss), (secretB, b32encode ksec)]) := by
      unfold KeyURI
      rw [if_neg (by rintro ⟨h1, _⟩; exact h1 rfl)]
      rw [if_neg (by simpa using hsecne)]
      simp only [] at hA2S ⊢
      rw [hA2S]
      simp
    have hpairs_b : ∀ p ∈ [(algorithmB, algStr), (counterB, formatInt kcnt),
        (issuerB, kiss), (secretB, b32encode ksec)],
        (∀ b ∈ p.1, b < 256) ∧ (∀ b ∈ p.2, b < 256) := by
      intro p hp
      simp only [List.mem_cons, List.not_mem_nil, or_false] at hp
      rcases hp with rfl | rfl | rfl | rfl
      · exact ⟨by show ∀ b ∈ algorithmB, b < 256; decide, halgb⟩
      · exact ⟨by show ∀ b ∈ counterB, b < 256; decide, formatInt_mem _⟩
      · exact ⟨by show ∀ b ∈ issuerB, b < 256; decide, hissuer⟩
      · exact ⟨by show ∀ b ∈ secretB, b < 256; decide, b32encode_lt _⟩
    refine ⟨_, hKU, ?_⟩
    unfold ParseURI
    simp only [urlParse_keyuri hotpB klab _ (.inr rfl) hlabel (encodeQuery_mem _ hpairs_b)]
    rw [if_neg (fun hne => hne rfl), if_neg (by rintro ⟨_, h2⟩; exact h2 rfl),
      if_neg (by simp)]
    rw [parseQuery_encodeQuery _ (by simp) hpairs_b]
    have hget_sec : queryGet [(algorithmB, algStr), (counterB, formatInt kcnt),
        (issuerB, kiss), (secretB, b32encode ksec)] secretB = b32encode ksec := by
      rw [queryGet_cons_ne (by decide), queryGet_cons_ne (by decide),
        queryGet_cons_ne (by decide), queryGet_cons_eq (by decide)]
    have hhas_sec : queryHas [(algorithmB, algStr), (counterB, formatInt kcnt),
        (issuerB, kiss), (secretB, b32encode ksec)] secretB = true := by
      rw [queryHas_cons_ne (by decide), queryHas_cons_ne (by decide),
        queryHas_cons_ne (by decide), queryHas_cons_eq (by decide)]
    have hget_alg : queryGet [(algorithmB, algStr), (counterB, formatInt kcnt),
        (issuerB, kiss), (secretB, b32encode ksec)] algorithmB = algStr :=
      queryGet_cons_eq (by decide)
    have hhas_alg : queryHas [(algorithmB, algStr), (counterB, formatInt kcnt),
        (issuerB, kiss), (secretB, b32encode ksec)] algorithmB = true :=
      queryHas_cons_eq (by decide)
    have hhas_dig : queryHas [(algorithmB, algStr), (counterB, formatInt kcnt),
        (issuerB, kiss), (secretB, b32encode ksec)] digitsB = false := by
      rw [queryHas_cons_ne (by decide), queryHas_cons_ne (by decide),
        queryHas_cons_ne (by decide), queryHas_cons_ne (by decide)]
      rfl
    have hget_iss : queryGet [(algorithmB, algStr), (counterB, formatInt kcnt),
        (issuerB, kiss), (secretB, b32encode ksec)] issuerB = kiss := by
      rw [queryGet_cons_ne (by decide), queryGet_cons_ne (by decide),
        queryGet_cons_eq (by decide)]
    have hget_cnt : queryGet [(algorithmB, algStr), (counterB, formatInt kcnt),
        (issuerB, kiss), (secretB, b32encode ksec)] counterB = formatInt kcnt := by
      rw [queryGet_cons_ne (by decide), queryGet_cons_eq (by decide)]
    have hhas_cnt : queryHas [(algorithmB, algStr), (counterB, formatInt kcnt),
        (issuerB, kiss), (secretB, b32encode ksec)] counterB = true := by
      rw [queryHas_cons_ne (by decide), queryHas_cons_eq (by decide)]
    rw [if_neg ?hsecok2]
    case hsecok2 =>
      rintro (h | h)
      · rw [hhas_sec] at h
        exact h rfl
      · rw [hget_sec] at h
        exact b32encode_ne_nil _ hsecne h
    rw [hget_sec, b32decode_encode _ hseclt]
    rw [if_pos hhas_alg, hget_alg, hS2A]
    have hifdig : ¬ (queryHas [(algorithmB, algStr), (counterB, formatInt kcnt),
        (issuerB, kiss), (secretB, b32encode ksec)] digitsB = true) := by
      rw [hhas_dig]
      exact fun h => Bool.noConfusion h
    rw [if_neg hifdig]
    simp only []
    rw [if_pos trivial]
    have hifcnt : ¬ ¬ (queryHas [(algorithmB, algStr), (counterB, formatInt kcnt),
        (issuerB, kiss), (secretB, b32encode ksec)] counterB = true) := fun h => h hhas_cnt
    rw [if_neg hifcnt]
    rw [hget_cnt, parseIntGo_formatInt kcnt hcntlo hcnthi]
    rw [hget_iss]
    rfl

/-- Witness for C6 amended at the Google-Authenticator example URI. -/
theorem parse_uri_roundtrip_amended_witness :
    ParseURI (ascii "otpauth://totp/Example:alice@google.com?secret=JBSWY3DPEHPK3PXP&issuer=Example") =
      some (.ok ⟨totpB, ascii "Example:alice@google.com",
        [72, 101, 108, 108, 111, 33, 0xde, 0xad, 0xbe, 0xef], ascii "Example", 3, 6, 0, 30⟩) ∧
    (⟨totpB, ascii "Example:alice@google.com",
        [72, 101, 108, 108, 111, 33, 0xde, 0xad, 0xbe, 0xef], ascii "Example", 3, 6, 0, 30⟩ :
      Key).Digits = 6 ∧
    (∃ u, KeyURI (⟨totpB, ascii "Example:alice@google.com",
        [72, 101, 108, 108, 111, 33, 0xde, 0xad, 0xbe, 0xef],
        ascii "Example", 3, 6, 0, 30⟩ : Key) = .ok u ∧
      ParseURI u = some (.ok ⟨totpB, ascii "Example:alice@google.com",
        [72, 101, 108, 108, 111, 33, 0xde, 0xad, 0xbe, 0xef], ascii "Example", 3, 6, 0, 30⟩)) :=
  ⟨by decide, by decide,
    parse_uri_roundtrip_amended
      (ascii "otpauth://totp/Example:alice@google.com?secret=JBSWY3DPEHPK3PXP&issuer=Example")
      ⟨totpB, ascii "Example:alice@google.com",
        [72, 101, 108, 108, 111, 33, 0xde, 0xad, 0xbe, 0xef], ascii "Example", 3, 6, 0, 30⟩
      (by decide) (by decide) (by decide) (by decide) (by decide)⟩

/-- C10: a URI that parses with scheme `otpauth`, host `totp` or `hotp` and an
empty path makes `ParseURI` evaluate `parsed.Path[1:]` on the empty string —
the out-of-bounds slice panic, modelled as `none`: neither a key nor a typed
error. -/
theorem parse_empty_path_panics (uri : Bytes) (parsed : URL)
    (hu : urlParse uri = some parsed) (hs : parsed.scheme = otpauthB)
    (hh : parsed.host = totpB ∨ parsed.host = hotpB) (hp : parsed.path = []) :
    ParseURI uri = none := by
  unfold ParseURI
  simp only [hu]
  rw [if_neg (fun hne => hne hs), if_neg (by tauto), if_pos hp]

/-- Witness for C10 at `otpauth://totp?secret=JBSWY3DPEHPK3PXP`. -/
theorem parse_empty_path_panics_witness :
    urlParse (ascii "otpauth://totp?secret=JBSWY3DPEHPK3PXP") =
      some ⟨otpauthB, totpB, [], ascii "secret=JBSWY3DPEHPK3PXP"⟩ ∧
    (⟨otpauthB, totpB, [], ascii "secret=JBSWY3DPEHPK3PXP"⟩ : URL).scheme = otpauthB ∧
    ((⟨otpauthB, totpB, [], ascii "secret=JBSWY3DPEHPK3PXP"⟩ : URL).host = totpB ∨
      (⟨otpauthB, totpB, [], ascii "secret=JBSWY3DPEHPK3PXP"⟩ : URL).host = hotpB) ∧
    (⟨otpauthB, totpB, [], ascii "secret=JBSWY3DPEHPK3PXP"⟩ : URL).path = [] ∧
    ParseURI (ascii "otpauth://totp?secret=JBSWY3DPEHPK3PXP") = none :=
  ⟨by decide, by decide, by decide, by decide,
    parse_empty_path_panics _ ⟨otpauthB, totpB, [], ascii "secret=JBSWY3DPEHPK3PXP"⟩
      (by decide) (by decide) (by decide) (by decide)⟩

end Otp
